import Mathlib

/-!
# Verification of the tech_tracker core (item store and recommenders)

Shallow embedding of `src/tech_tracker/item.py`, `src/tech_tracker/item_store.py`
and `src/tech_tracker/app/recommend.py`.

Modelling conventions:
* Python `datetime` values are modelled as UTC calendar records (`DT`).  All
  datetimes handled by the core are timezone-aware UTC instants (the data-model
  invariant), so `astimezone(timezone.utc)` is the identity in the model.
* `datetime.isoformat()` on a UTC value prints
  `YYYY-MM-DDTHH:MM:SS[.ffffff]+00:00`; the code replaces the unique `+00:00`
  suffix by `Z`.  `dtToStr` produces the same characters directly (the prefix
  consists of digits and `-:T.` only, so the `str.replace` touches exactly the
  suffix).
* `datetime.fromisoformat` is modelled on the subset of inputs the repository
  produces and stores: `YYYY-MM-DDTHH:MM:SS[.ffffff]` optionally followed by a
  `+00:00` offset, with the same field-range validation.
* Machine integers do not overflow here (Python ints are unbounded), so `Nat`
  is used throughout.
-/

namespace TechTracker

/-! ## UTC datetimes -/

/-- A timezone-aware UTC `datetime`: calendar fields plus microseconds. -/
structure DT where
  year : Nat
  month : Nat
  day : Nat
  hour : Nat
  minute : Nat
  second : Nat
  microsecond : Nat
deriving DecidableEq, Repr

/-- Field ranges enforced by Python's `datetime` constructor (day is bounded by
31 in the model; Python additionally checks the day against the month). -/
def DT.Valid (t : DT) : Prop :=
  1 ≤ t.year ∧ t.year ≤ 9999 ∧ 1 ≤ t.month ∧ t.month ≤ 12 ∧ 1 ≤ t.day ∧ t.day ≤ 31 ∧
    t.hour ≤ 23 ∧ t.minute ≤ 59 ∧ t.second ≤ 59 ∧ t.microsecond ≤ 999999

instance (t : DT) : Decidable t.Valid := by unfold DT.Valid; infer_instance

/-- Lexicographic strict comparison of equal-length `Nat` lists (how Python
compares the field tuples of two datetimes in a common timezone). -/
def lexLt : List Nat → List Nat → Bool
  | _, [] => false
  | [], _ :: _ => true
  | a :: as, b :: bs => if a ≠ b then a < b else lexLt as bs

theorem lexLt_trans : ∀ {as bs cs : List Nat},
    lexLt as bs = true → lexLt bs cs = true → lexLt as cs = true
  | _, [], _, hab, _ => by simp [lexLt] at hab
  | _, _ :: _, [], _, hbc => by simp [lexLt] at hbc
  | [], _ :: _, _ :: _, _, _ => by simp [lexLt]
  | a :: as, b :: bs, c :: cs, hab, hbc => by
    simp only [lexLt] at *
    split_ifs at * <;> simp_all <;> try omega
    exact lexLt_trans hab hbc

theorem lexLt_asymm : ∀ {as bs : List Nat},
    lexLt as bs = true → lexLt bs as = false
  | _, [], hab => by simp [lexLt] at hab
  | [], _ :: _, _ => by simp [lexLt]
  | a :: as, b :: bs, hab => by
    simp only [lexLt] at *
    split_ifs at * <;> simp_all <;> try omega
    exact lexLt_asymm hab

theorem lexLt_total : ∀ {as bs : List Nat},
    lexLt as bs = false → lexLt bs as = false → as = bs
  | [], [], _, _ => rfl
  | _ :: _, [], _, hba => by simp [lexLt] at hba
  | [], _ :: _, hab, _ => by simp [lexLt] at hab
  | a :: as, b :: bs, hab, hba => by
    simp only [lexLt] at *
    split_ifs at * <;> simp_all <;> try omega
    exact lexLt_total hab hba

/-- The field tuple Python's datetime comparison inspects. -/
def DT.fieldsList (t : DT) : List Nat :=
  [t.year, t.month, t.day, t.hour, t.minute, t.second, t.microsecond]

theorem DT.fieldsList_inj {a b : DT} (h : a.fieldsList = b.fieldsList) : a = b := by
  cases a; cases b; simp [DT.fieldsList] at h; simp_all

/-- Comparison of two UTC datetimes (Python compares instants; with a common
timezone this is lexicographic comparison of the fields). -/
def DT.ltb (a b : DT) : Bool := lexLt a.fieldsList b.fieldsList

theorem DT.ltb_trans {a b c : DT} (hab : DT.ltb a b = true) (hbc : DT.ltb b c = true) :
    DT.ltb a c = true := lexLt_trans hab hbc

theorem DT.ltb_asymm {a b : DT} (hab : DT.ltb a b = true) : DT.ltb b a = false :=
  lexLt_asymm hab

theorem DT.eq_of_not_ltb {a b : DT} (hab : DT.ltb a b = false) (hba : DT.ltb b a = false) :
    a = b :=
  DT.fieldsList_inj (lexLt_total hab hba)

/-! ## Decimal digit printing and parsing -/

/-- The character of a decimal digit. -/
def digitChar (d : Nat) : Char := Char.ofNat (48 + d)

/-- Numeric value of a decimal digit character (code points 48–57). -/
def digitVal (c : Char) : Option Nat :=
  if 48 ≤ c.toNat ∧ c.toNat ≤ 57 then some (c.toNat - 48) else none

/-- `n` printed as exactly `w` zero-padded decimal digits (most significant first). -/
def padDigits : Nat → Nat → List Char
  | 0, _ => []
  | w + 1, n => digitChar (n / 10 ^ w) :: padDigits w (n % 10 ^ w)

/-- Parse exactly `w` decimal digits, accumulating onto `acc`. -/
def parseDigitsAux : Nat → Nat → List Char → Option (Nat × List Char)
  | acc, 0, cs => some (acc, cs)
  | _, _ + 1, [] => none
  | acc, w + 1, c :: cs =>
    match digitVal c with
    | some d => parseDigitsAux (acc * 10 + d) w cs
    | none => none

/-- Parse exactly `w` decimal digits at the front of `cs`. -/
def parseNDigits (w : Nat) (cs : List Char) : Option (Nat × List Char) :=
  parseDigitsAux 0 w cs

theorem digitVal_digitChar {d : Nat} (h : d < 10) : digitVal (digitChar d) = some d := by
  interval_cases d <;> decide

theorem parseDigitsAux_padDigits (w : Nat) :
    ∀ (n acc : Nat) (rest : List Char), n < 10 ^ w →
      parseDigitsAux acc w (padDigits w n ++ rest) = some (acc * 10 ^ w + n, rest) := by
  induction w with
  | zero =>
    intro n acc rest h
    interval_cases n
    simp [padDigits, parseDigitsAux]
  | succ w ih =>
    intro n acc rest h
    have hq : n / 10 ^ w < 10 := by
      apply Nat.div_lt_of_lt_mul
      calc n < 10 ^ (w + 1) := h
        _ = 10 ^ w * 10 := by ring
    have hr : n % 10 ^ w < 10 ^ w := Nat.mod_lt _ (Nat.pos_pow_of_pos w (by norm_num))
    simp only [padDigits, List.cons_append, List.append_eq, parseDigitsAux,
      digitVal_digitChar hq]
    rw [ih (n % 10 ^ w) (acc * 10 + n / 10 ^ w) rest hr]
    have hdm : 10 ^ w * (n / 10 ^ w) + n % 10 ^ w = n := Nat.div_add_mod n (10 ^ w)
    congr 2
    calc (acc * 10 + n / 10 ^ w) * 10 ^ w + n % 10 ^ w
        = acc * (10 ^ w * 10) + (10 ^ w * (n / 10 ^ w) + n % 10 ^ w) := by ring
      _ = acc * 10 ^ (w + 1) + n := by rw [hdm, pow_succ]

theorem parseNDigits_padDigits {w n : Nat} (rest : List Char) (h : n < 10 ^ w) :
    parseNDigits w (padDigits w n ++ rest) = some (n, rest) := by
  unfold parseNDigits
  rw [parseDigitsAux_padDigits w n 0 rest h]
  simp

theorem parseDigitsAux_lt (w : Nat) :
    ∀ (acc n : Nat) (cs rest : List Char),
      parseDigitsAux acc w cs = some (n, rest) → n < (acc + 1) * 10 ^ w := by
  induction w with
  | zero =>
    intro acc n cs rest h
    simp [parseDigitsAux] at h
    omega
  | succ w ih =>
    intro acc n cs rest h
    match cs with
    | [] => simp [parseDigitsAux] at h
    | c :: cs =>
      simp only [parseDigitsAux] at h
      match hd : digitVal c with
      | none => rw [hd] at h; simp at h
      | some d =>
        rw [hd] at h
        have hd10 : d < 10 := by
          unfold digitVal at hd
          split at hd <;> simp_all
          omega
        have := ih (acc * 10 + d) n cs rest h
        calc n < (acc * 10 + d + 1) * 10 ^ w := this
          _ ≤ (acc + 1) * 10 ^ (w + 1) := by
              rw [pow_succ]
              nlinarith [Nat.pos_pow_of_pos w (show 0 < 10 by norm_num)]

theorem parseNDigits_lt {w n : Nat} {cs rest : List Char}
    (h : parseNDigits w cs = some (n, rest)) : n < 10 ^ w := by
  have := parseDigitsAux_lt w 0 n cs rest h
  simpa using this

/-! ## ISO-8601 formatting and parsing (`_dt_to_str`, `_str_to_dt`) -/

/-- Consume one expected literal character. -/
def parseLit (c : Char) : List Char → Option (List Char)
  | [] => none
  | c' :: cs => if c' = c then some cs else none

theorem parseLit_cons (c : Char) (cs : List Char) : parseLit c (c :: cs) = some cs := by
  simp [parseLit]

/-- The characters of `isoformat()` for a UTC datetime, without the trailing
`+00:00` offset: `YYYY-MM-DDTHH:MM:SS` plus `.ffffff` when microseconds are
nonzero. -/
def isoChars (t : DT) : List Char :=
  padDigits 4 t.year ++ '-' :: (padDigits 2 t.month ++ '-' :: (padDigits 2 t.day ++
    'T' :: (padDigits 2 t.hour ++ ':' :: (padDigits 2 t.minute ++ ':' :: (padDigits 2 t.second ++
      (if t.microsecond = 0 then [] else '.' :: padDigits 6 t.microsecond))))))

/-- `_dt_to_str` / `Item.to_dict` timestamp rendering:
`dt.astimezone(timezone.utc).isoformat().replace("+00:00", "Z")`.
For a UTC value `isoformat()` is `isoChars t ++ "+00:00"`, and since `+` cannot
occur among the digit/`-:T.` characters of `isoChars`, the `replace` rewrites
exactly the trailing offset to `Z`. -/
def dtToStr (t : DT) : String := String.mk (isoChars t ++ ['Z'])

/-- The offset characters `+00:00`. -/
def offsetChars : List Char := ['+', '0', '0', ':', '0', '0']

/-- The optional fractional-seconds part: `.ffffff` or nothing (microseconds 0). -/
def parseFrac (cs : List Char) : Option (Nat × List Char) :=
  match cs with
  | '.' :: cs' => parseNDigits 6 cs'
  | _ => some (0, cs)

/-- The optional trailing UTC offset: end of input (a naive datetime, tagged UTC
by the caller) or exactly `+00:00` (an aware UTC datetime). -/
def parseOffsetEnd (cs : List Char) : Option Unit :=
  match cs with
  | [] => some ()
  | '+' :: rest =>
    match parseLit '0' rest with
    | none => none
    | some rest =>
      match parseLit '0' rest with
      | none => none
      | some rest =>
        match parseLit ':' rest with
        | none => none
        | some rest =>
          match parseLit '0' rest with
          | none => none
          | some rest =>
            match parseLit '0' rest with
            | some [] => some ()
            | _ => none
  | _ => none

theorem parseFrac_offset : parseFrac offsetChars = some (0, offsetChars) := rfl

theorem parseFrac_nil : parseFrac [] = some (0, []) := rfl

theorem parseFrac_dot {us : Nat} (rest : List Char) (h : us < 10 ^ 6) :
    parseFrac ('.' :: (padDigits 6 us ++ rest)) = some (us, rest) := by
  unfold parseFrac
  exact parseNDigits_padDigits rest h

theorem parseOffsetEnd_offset : parseOffsetEnd offsetChars = some () := rfl

theorem parseOffsetEnd_nil : parseOffsetEnd [] = some () := rfl

/-- `datetime.fromisoformat` on the subset of inputs this repository produces:
`YYYY-MM-DDTHH:MM:SS[.ffffff]` optionally followed by a `+00:00` offset, with
Python's field-range validation (as done by the `datetime` constructor).  A
missing offset yields a naive datetime that the callers then tag as UTC
(`replace(tzinfo=utc)`), which leaves the fields unchanged, as does
`astimezone(utc)` on an already-UTC aware value, so both paths return the same
`DT`. -/
def fromisoChars (cs : List Char) : Option DT :=
  match parseNDigits 4 cs with
  | none => none
  | some (y, cs) =>
  match parseLit '-' cs with
  | none => none
  | some cs =>
  match parseNDigits 2 cs with
  | none => none
  | some (mo, cs) =>
  match parseLit '-' cs with
  | none => none
  | some cs =>
  match parseNDigits 2 cs with
  | none => none
  | some (d, cs) =>
  match parseLit 'T' cs with
  | none => none
  | some cs =>
  match parseNDigits 2 cs with
  | none => none
  | some (h, cs) =>
  match parseLit ':' cs with
  | none => none
  | some cs =>
  match parseNDigits 2 cs with
  | none => none
  | some (mi, cs) =>
  match parseLit ':' cs with
  | none => none
  | some cs =>
  match parseNDigits 2 cs with
  | none => none
  | some (s, cs) =>
  match parseFrac cs with
  | none => none
  | some (us, cs) =>
  match parseOffsetEnd cs with
  | none => none
  | some _ =>
  if DT.Valid ⟨y, mo, d, h, mi, s, us⟩ then some ⟨y, mo, d, h, mi, s, us⟩ else none

/-- `_str_to_dt`: rewrite a trailing `Z` to `+00:00`, parse, normalize to UTC. -/
def strToDt (s : String) : Option DT :=
  match s.data.getLast? with
  | some 'Z' => fromisoChars (s.data.dropLast ++ offsetChars)
  | _ => fromisoChars s.data

theorem fromisoChars_valid {cs : List Char} {t : DT} (hp : fromisoChars cs = some t) :
    t.Valid := by
  unfold fromisoChars at hp
  repeat' split at hp
  all_goals simp_all

theorem strToDt_valid {s : String} {t : DT} (h : strToDt s = some t) : t.Valid := by
  unfold strToDt at h
  split at h
  · exact fromisoChars_valid h
  · exact fromisoChars_valid h

theorem getLast?_append_singleton {α : Type} (l : List α) (a : α) :
    (l ++ [a]).getLast? = some a := by
  simp [List.getLast?_concat]

theorem strToDt_dtToStr {t : DT} (h : t.Valid) : strToDt (dtToStr t) = some t := by
  have hv := h
  obtain ⟨h1, h2, h3, h4, h5, h6, h7, h8, h9, h10⟩ := h
  have hy : t.year < 10 ^ 4 := by norm_num; omega
  have hmo : t.month < 10 ^ 2 := by norm_num; omega
  have hd : t.day < 10 ^ 2 := by norm_num; omega
  have hh : t.hour < 10 ^ 2 := by norm_num; omega
  have hmi : t.minute < 10 ^ 2 := by norm_num; omega
  have hs : t.second < 10 ^ 2 := by norm_num; omega
  have hus : t.microsecond < 10 ^ 6 := by norm_num; omega
  unfold strToDt dtToStr
  simp only [getLast?_append_singleton, List.dropLast_concat]
  unfold isoChars
  by_cases husz : t.microsecond = 0
  · rw [if_pos husz]
    unfold fromisoChars
    simp only [List.append_assoc, List.cons_append, List.append_nil]
    rw [parseNDigits_padDigits _ hy]; dsimp only
    rw [parseLit_cons]; dsimp only
    rw [parseNDigits_padDigits _ hmo]; dsimp only
    rw [parseLit_cons]; dsimp only
    rw [parseNDigits_padDigits _ hd]; dsimp only
    rw [parseLit_cons]; dsimp only
    rw [parseNDigits_padDigits _ hh]; dsimp only
    rw [parseLit_cons]; dsimp only
    rw [parseNDigits_padDigits _ hmi]; dsimp only
    rw [parseLit_cons]; dsimp only
    rw [parseNDigits_padDigits _ hs]; dsimp only
    rw [parseFrac_offset]; dsimp only
    rw [parseOffsetEnd_offset]; dsimp only
    rw [if_pos (show DT.Valid ⟨t.year, t.month, t.day, t.hour, t.minute, t.second, 0⟩ by
      rw [← husz]; exact hv)]
    rw [← husz]
  · rw [if_neg husz]
    unfold fromisoChars
    simp only [List.append_assoc, List.cons_append]
    rw [parseNDigits_padDigits _ hy]; dsimp only
    rw [parseLit_cons]; dsimp only
    rw [parseNDigits_padDigits _ hmo]; dsimp only
    rw [parseLit_cons]; dsimp only
    rw [parseNDigits_padDigits _ hd]; dsimp only
    rw [parseLit_cons]; dsimp only
    rw [parseNDigits_padDigits _ hh]; dsimp only
    rw [parseLit_cons]; dsimp only
    rw [parseNDigits_padDigits _ hmi]; dsimp only
    rw [parseLit_cons]; dsimp only
    rw [parseNDigits_padDigits _ hs]; dsimp only
    rw [parseFrac_dot _ hus]; dsimp only
    rw [parseOffsetEnd_offset]; dsimp only
    rw [if_pos hv]

/-! ## Python string ordering -/

theorem lexLt_false_trans {as bs cs : List Nat} (hba : lexLt bs as = false)
    (hcb : lexLt cs bs = false) : lexLt cs as = false := by
  by_contra hca
  rw [Bool.not_eq_false] at hca
  rcases hab : lexLt as bs with _ | _
  · rw [lexLt_total hab hba] at hca
    rw [hca] at hcb
    simp at hcb
  · have h2 := lexLt_trans hca hab
    rw [h2] at hcb
    simp at hcb

theorem charToNat_inj {a b : Char} (h : a.toNat = b.toNat) : a = b := by
  have hv : a.val = b.val := by
    have h2 : a.val.toNat = b.val.toNat := h
    exact UInt32.toNat.inj h2
  exact Char.eq_of_val_eq hv

/-- The code-point sequence of a string, the alphabet Python compares by. -/
def strCodes (s : String) : List Nat := s.data.map Char.toNat

theorem strCodes_inj {a b : String} (h : strCodes a = strCodes b) : a = b := by
  apply String.ext
  exact List.map_injective_iff.mpr (fun _ _ hc => charToNat_inj hc) h

/-- Python's `≤` on strings: lexicographic by code point (`a ≤ b ↔ ¬ b < a`). -/
def pyStrLe (a b : String) : Prop := lexLt (strCodes b) (strCodes a) = false

instance (a b : String) : Decidable (pyStrLe a b) := by unfold pyStrLe; infer_instance

theorem pyStrLe_total (a b : String) : pyStrLe a b ∨ pyStrLe b a := by
  unfold pyStrLe
  rcases h : lexLt (strCodes b) (strCodes a) with _ | _
  · exact Or.inl rfl
  · exact Or.inr (lexLt_asymm h)

theorem pyStrLe_trans {a b c : String} (hab : pyStrLe a b) (hbc : pyStrLe b c) :
    pyStrLe a c :=
  lexLt_false_trans hab hbc

theorem pyStrLe_antisymm {a b : String} (hab : pyStrLe a b) (hba : pyStrLe b a) : a = b :=
  strCodes_inj (lexLt_total hba hab)

/-- The timestamp string of a valid datetime is nonempty (it is "truthy"). -/
theorem dtToStr_ne_empty (t : DT) : dtToStr t ≠ "" := by
  unfold dtToStr
  intro hcon
  have h2 : (isoChars t ++ ['Z']) = ([] : List Char) := by
    have h3 := congrArg String.data hcon
    simp only [String.data] at h3
    exact h3
  simp at h2

/-! ## Items as the recommenders see them (`app/recommend.py`)

`recommend.py` reads `item.seen` and `item.published`/`item.item_id`/`item.title`
on the items it is given, and the repository's tests construct items carrying a
`seen` flag.  `AppItem` is that shape.  (The `Item` dataclass actually defined in
`item.py` lacks the `seen` field — that mismatch is the subject of claim C4 and
is modelled separately below by `Item`.) -/

structure AppItem where
  item_id : String
  source_type : String
  source_url : String
  title : String
  link : String
  published : DT
  seen : Bool
deriving DecidableEq, Repr

/-! ## Tokenization (`tokenize_title` in `recommend.py`)

`re.split(r'[^a-zA-Z0-9]', title)` splits at every single character that is not
an ASCII letter or digit, keeping empty segments; the comprehension then drops
empty tokens and lower-cases the rest. -/

/-- A character matched by `[a-zA-Z0-9]`. -/
def isTokenChar (c : Char) : Bool :=
  ('a' ≤ c && c ≤ 'z') || ('A' ≤ c && c ≤ 'Z') || ('0' ≤ c && c ≤ '9')

/-- `re.split` with a single-character class: split at each separator character,
keeping empty segments between adjacent separators. -/
def splitChars (p : Char → Bool) : List Char → List (List Char)
  | [] => [[]]
  | c :: cs =>
    match splitChars p cs with
    | [] => [[]]
    | t :: ts => if p c then [] :: t :: ts else (c :: t) :: ts

/-- `tokenize_title` from `recommend.py` (both copies are identical):
split on `[^a-zA-Z0-9]`, drop empty tokens, lower-case the rest. -/
def tokenize_title (title : String) : List String :=
  ((splitChars (fun c => !isTokenChar c) title.data).map String.mk).filterMap
    (fun tok => if tok = "" then none else some (String.mk (tok.data.map Char.toLower)))

/-! ## `collections.Counter` -/

/-- A `Counter`: association list in key-insertion order (Python dicts preserve
insertion order; updating an existing key keeps its position). -/
abbrev Counter := List (String × Nat)

/-- `counter[k] += 1` (inserting with count 1 if absent, appended at the end). -/
def counterIncr : Counter → String → Counter
  | [], k => [(k, 1)]
  | (k', n) :: rest, k =>
    if k' = k then (k', n + 1) :: rest else (k', n) :: counterIncr rest k

/-- `counter.update(ks)`. -/
def counterUpdate (c : Counter) (ks : List String) : Counter := ks.foldl counterIncr c

/-- `counter[k]`: stored count, `0` when absent. -/
def counterGet (c : Counter) (k : String) : Nat :=
  match c.find? (fun p => p.1 = k) with
  | some p => p.2
  | none => 0

/-- `k in counter`. -/
def counterMem (c : Counter) (k : String) : Bool := (c.find? (fun p => p.1 = k)).isSome

/-- The keyword table built from the seen items' titles
(`for item in seen_items: keyword_counts.update(tokenize_title(item.title))`). -/
def keywordCountsOf (items : List AppItem) : Counter :=
  (items.filter (fun i => i.seen)).foldl (fun c i => counterUpdate c (tokenize_title i.title)) []

/-! ## Sort orders used by the recommenders

Python sorts with key tuples.  `item.published.timestamp()` is strictly
increasing in the instant, so `(-published.timestamp(), item_id)` orders by
published descending, then `item_id` ascending; `list.sort`/`sorted` are stable,
as is `List.insertionSort`. -/

/-- Order by key `(-published.timestamp(), item_id)`. -/
def latestKeyLe (a b : AppItem) : Prop :=
  DT.ltb b.published a.published = true ∨
    (a.published = b.published ∧ pyStrLe a.item_id b.item_id)

instance : DecidableRel latestKeyLe := by
  intro a b; unfold latestKeyLe; infer_instance

instance : IsTotal AppItem latestKeyLe := by
  constructor
  intro a b
  rcases h : DT.ltb b.published a.published with _ | _
  · rcases h' : DT.ltb a.published b.published with _ | _
    · have he : a.published = b.published := DT.eq_of_not_ltb h' h
      rcases pyStrLe_total a.item_id b.item_id with hs | hs
      · exact Or.inl (Or.inr ⟨he, hs⟩)
      · exact Or.inr (Or.inr ⟨he.symm, hs⟩)
    · exact Or.inr (Or.inl h')
  · exact Or.inl (Or.inl h)

instance : IsTrans AppItem latestKeyLe := by
  constructor
  intro a b c hab hbc
  rcases hab with hab | ⟨hab1, hab2⟩
  · rcases hbc with hbc | ⟨hbc1, hbc2⟩
    · exact Or.inl (DT.ltb_trans hbc hab)
    · exact Or.inl (hbc1 ▸ hab)
  · rcases hbc with hbc | ⟨hbc1, hbc2⟩
    · exact Or.inl (hab1 ▸ hbc)
    · exact Or.inr ⟨hab1.trans hbc1, pyStrLe_trans hab2 hbc2⟩

/-- Order by key `(-score, -published.timestamp(), item_id)` used in
`recommend_keyword_from_seen`. -/
def scoredLe (x y : AppItem × Nat) : Prop :=
  y.2 < x.2 ∨ (x.2 = y.2 ∧ latestKeyLe x.1 y.1)

instance : DecidableRel scoredLe := by
  intro a b; unfold scoredLe; infer_instance

instance : IsTotal (AppItem × Nat) scoredLe := by
  constructor
  intro x y
  rcases Nat.lt_trichotomy y.2 x.2 with h | h | h
  · exact Or.inl (Or.inl h)
  · rcases IsTotal.total (r := latestKeyLe) x.1 y.1 with hs | hs
    · exact Or.inl (Or.inr ⟨h.symm, hs⟩)
    · exact Or.inr (Or.inr ⟨h, hs⟩)
  · exact Or.inr (Or.inl h)

instance : IsTrans (AppItem × Nat) scoredLe := by
  constructor
  intro x y z hxy hyz
  rcases hxy with hxy | ⟨hxy1, hxy2⟩
  · rcases hyz with hyz | ⟨hyz1, hyz2⟩
    · exact Or.inl (hyz.trans hxy)
    · exact Or.inl (hyz1 ▸ hxy)
  · rcases hyz with hyz | ⟨hyz1, hyz2⟩
    · exact Or.inl (hxy1 ▸ hyz)
    · exact Or.inr ⟨hxy1.trans hyz1, IsTrans.trans (r := latestKeyLe) _ _ _ hxy2 hyz2⟩

/-! ## The recommenders -/

/-- Metadata of `LatestRecommender.recommend` (the keys of its `meta` dict). -/
structure LatestMeta where
  strategy : String
  limit : Nat
  filtered : Bool
  total_items : Nat
  unseen_items : Nat
deriving DecidableEq, Repr

/-- Result of `LatestRecommender.recommend`. -/
structure LatestResult where
  items : List AppItem
  meta : LatestMeta
deriving DecidableEq, Repr

/-- `LatestRecommender.recommend` from `app/recommend.py`: filter unseen, fall
back to all items when none, stable-sort by `(-published.timestamp(), item_id)`,
truncate to the limit, and report metadata. -/
def LatestRecommender_recommend (items : List AppItem) (limit : Nat) : LatestResult :=
  let unseen_items := items.filter (fun i => !i.seen)
  let items_to_process := if unseen_items.isEmpty then items else unseen_items
  let sorted_items := List.insertionSort latestKeyLe items_to_process
  let limited_items := sorted_items.take limit
  { items := limited_items
    meta :=
      { strategy := "latest"
        limit := limit
        filtered := decide (0 < unseen_items.length)
        total_items := items.length
        unseen_items := unseen_items.length } }

/-- `recommend_keyword_from_seen` from `app/recommend.py`. -/
def recommend_keyword_from_seen (items : List AppItem) (limit : Nat) : List AppItem :=
  let keyword_counts := keywordCountsOf items
  if keyword_counts.isEmpty then []
  else
    let unseen_items := items.filter (fun i => !i.seen)
    let candidate_items := if unseen_items.isEmpty then items else unseen_items
    let scored_items := candidate_items.map (fun item =>
      (item,
        (((tokenize_title item.title).filter (fun tok => counterMem keyword_counts tok)).map
          (fun tok => counterGet keyword_counts tok)).sum))
    let sorted_items := List.insertionSort scoredLe scored_items
    (sorted_items.take limit).map (fun x => x.1)

/-- Order of `top_keywords`: weight descending, keyword ascending. -/
def topKwLe (x y : String × Nat) : Prop :=
  y.2 < x.2 ∨ (x.2 = y.2 ∧ pyStrLe x.1 y.1)

instance : DecidableRel topKwLe := by
  intro a b; unfold topKwLe; infer_instance

/-- `KeywordFromSeenRecommender._extract_top_keywords`. -/
def extract_top_keywords (items : List AppItem) : List (String × Nat) :=
  let keyword_counts := keywordCountsOf items
  if keyword_counts.isEmpty then []
  else List.insertionSort topKwLe keyword_counts

/-- Metadata of `KeywordFromSeenRecommender.recommend`. -/
structure KeywordMeta where
  strategy : String
  limit : Nat
  total_items : Nat
  top_keywords : List (String × Nat)
deriving DecidableEq, Repr

/-- Result of `KeywordFromSeenRecommender.recommend`. -/
structure KeywordResult where
  items : List AppItem
  meta : KeywordMeta
deriving DecidableEq, Repr

/-- `KeywordFromSeenRecommender.recommend`. -/
def KeywordFromSeenRecommender_recommend (items : List AppItem) (limit : Nat) :
    KeywordResult :=
  { items := recommend_keyword_from_seen items limit
    meta :=
      { strategy := "keyword_from_seen"
        limit := limit
        total_items := items.length
        top_keywords := extract_top_keywords items } }

/-! ## Counter lemmas -/

theorem counterGet_nil (t : String) : counterGet [] t = 0 := rfl

theorem counterGet_counterIncr (c : Counter) (k t : String) :
    counterGet (counterIncr c k) t = counterGet c t + if k = t then 1 else 0 := by
  induction c with
  | nil =>
    by_cases h : k = t <;> simp [counterIncr, counterGet, List.find?, h]
  | cons p rest ih =>
    obtain ⟨k', n⟩ := p
    by_cases h1 : k' = k
    · subst h1
      by_cases h2 : k' = t
      · subst h2
        simp [counterIncr, counterGet, List.find?]
      · simp [counterIncr, counterGet, List.find?, h2]
    · by_cases h2 : k' = t
      · subst h2
        simp [counterIncr, counterGet, List.find?, h1, Ne.symm h1]
      · simpa [counterIncr, counterGet, List.find?, h1, h2] using ih

theorem counterGet_counterUpdate (c : Counter) (ks : List String) (t : String) :
    counterGet (counterUpdate c ks) t = counterGet c t + ks.count t := by
  induction ks generalizing c with
  | nil => simp [counterUpdate]
  | cons k ks ih =>
    have step : counterUpdate c (k :: ks) = counterUpdate (counterIncr c k) ks := rfl
    rw [step, ih, counterGet_counterIncr]
    by_cases h : k = t
    · subst h
      simp [List.count_cons]
      omega
    · simp [List.count_cons, h, Ne.symm h]

theorem counterGet_foldl (l : List AppItem) (c : Counter) (t : String) :
    counterGet (l.foldl (fun c i => counterUpdate c (tokenize_title i.title)) c) t
      = counterGet c t + (l.map (fun i => (tokenize_title i.title).count t)).sum := by
  induction l generalizing c with
  | nil => simp
  | cons a l ih =>
    simp only [List.foldl_cons, List.map_cons, List.sum_cons]
    rw [ih, counterGet_counterUpdate]
    omega

theorem keywordCountsOf_empty {items : List AppItem}
    (h : ∀ i ∈ items, i.seen = true → tokenize_title i.title = []) :
    keywordCountsOf items = [] := by
  unfold keywordCountsOf
  have hfilter : ∀ i ∈ items.filter (fun i => i.seen), tokenize_title i.title = [] := by
    intro i hi
    rw [List.mem_filter] at hi
    exact h i hi.1 hi.2
  generalize hl : items.filter (fun i => i.seen) = l at hfilter
  clear hl h
  induction l with
  | nil => rfl
  | cons a l ih =>
    have ha := hfilter a (by simp)
    simp only [List.foldl_cons, ha]
    have : counterUpdate [] [] = [] := rfl
    rw [this]
    exact ih (fun i hi => hfilter i (by simp [hi]))

/-! ## Concrete items used by the repository's own tests -/

/-- The seen item of `test_keyword_from_seen_recommender_token_plus_support`. -/
def itemCpp : AppItem :=
  { item_id := "seen:cplusplus", source_type := "youtube",
    source_url := "https://youtube.com/channel/cpp", title := "C++ Programming Guide",
    link := "https://youtube.com/watch?v=cpp",
    published := ⟨2023, 12, 21, 15, 0, 0, 0⟩, seen := true }

/-- A seen item whose title repeats a token. -/
def itemPyPy : AppItem :=
  { item_id := "seen:pypy", source_type := "youtube",
    source_url := "https://youtube.com/channel/py", title := "python python",
    link := "https://youtube.com/watch?v=py",
    published := ⟨2023, 12, 20, 10, 0, 0, 0⟩, seen := true }

/-- The items of `test_recommend_keyword_from_seen_deduplicate_tokens`. -/
def dedupTestItems : List AppItem :=
  [{ item_id := "seen:python1", source_type := "youtube",
     source_url := "https://youtube.com/channel/python",
     title := "Python Programming Tutorial",
     link := "https://youtube.com/watch?v=python1",
     published := ⟨2023, 12, 20, 10, 0, 0, 0⟩, seen := true },
   { item_id := "seen:async1", source_type := "youtube",
     source_url := "https://youtube.com/channel/async",
     title := "Async Programming Guide",
     link := "https://youtube.com/watch?v=async1",
     published := ⟨2023, 12, 21, 10, 0, 0, 0⟩, seen := true },
   { item_id := "unseen:duplicate_python", source_type := "youtube",
     source_url := "https://youtube.com/channel/duplicate",
     title := "python python async",
     link := "https://youtube.com/watch?v=duplicate",
     published := ⟨2023, 12, 22, 10, 0, 0, 0⟩, seen := false },
   { item_id := "unseen:duplicate_async", source_type := "youtube",
     source_url := "https://youtube.com/channel/duplicate2",
     title := "async async python",
     link := "https://youtube.com/watch?v=duplicate2",
     published := ⟨2023, 12, 23, 10, 0, 0, 0⟩, seen := false },
   { item_id := "unseen:no_duplicates", source_type := "youtube",
     source_url := "https://youtube.com/channel/normal",
     title := "python async",
     link := "https://youtube.com/watch?v=normal",
     published := ⟨2023, 12, 24, 10, 0, 0, 0⟩, seen := false }]

/-- The items of the spec's `KeywordFromSeenRecommender` scoring example. -/
def scoringExampleItems : List AppItem :=
  [{ item_id := "youtube:abc123", source_type := "youtube",
     source_url := "https://youtube.com/channel/test1",
     title := "Python Programming Tutorial",
     link := "https://youtube.com/watch?v=abc123",
     published := ⟨2023, 12, 20, 10, 0, 0, 0⟩, seen := true },
   { item_id := "youtube:def456", source_type := "youtube",
     source_url := "https://youtube.com/channel/test2",
     title := "Advanced Python Guide",
     link := "https://youtube.com/watch?v=def456",
     published := ⟨2023, 12, 21, 10, 0, 0, 0⟩, seen := false },
   { item_id := "youtube:ghi789", source_type := "youtube",
     source_url := "https://youtube.com/channel/test3",
     title := "JavaScript Basics",
     link := "https://youtube.com/watch?v=ghi789",
     published := ⟨2023, 12, 22, 10, 0, 0, 0⟩, seen := false }]

/-- Two all-seen items, A published at 12:00 and B at 11:00 (the spec's
`LatestRecommender` fallback example). -/
def latestFallbackItems : List AppItem :=
  [{ item_id := "A", source_type := "youtube", source_url := "u", title := "tA",
     link := "lA", published := ⟨2024, 1, 1, 12, 0, 0, 0⟩, seen := true },
   { item_id := "B", source_type := "youtube", source_url := "u", title := "tB",
     link := "lB", published := ⟨2024, 1, 1, 11, 0, 0, 0⟩, seen := true }]

/-! ## Claim theorems (recommenders) -/

/-- C1: the claim says the tokenizer keeps `#` and `+` inside tokens, so that a
seen title "C++ Programming Guide" registers the keyword "c++" with weight 1.
The code's `re.split(r'[^a-zA-Z0-9]', ...)` splits on `+` and `#` as well, so
the title tokenizes to `["c", "programming", "guide"]`, the keyword table has
no "c++" entry, and "c" gets weight 1 — contradicting the claim and the
repository's own test `test_keyword_from_seen_recommender_token_plus_support`. -/
theorem claim_C1_tokenizer :
    tokenize_title "C++ Programming Guide" = ["c", "programming", "guide"] ∧
    counterMem (keywordCountsOf [itemCpp]) "c++" = false ∧
    counterGet (keywordCountsOf [itemCpp]) "c++" = 0 ∧
    counterGet (keywordCountsOf [itemCpp]) "c" = 1 := by
  refine ⟨by decide, by decide, by decide, by decide⟩

/-- C2 (counterexample): a seen title "python python" gives the token "python"
weight 2, not the weight 1 the claim's per-title deduplication would give. -/
theorem claim_C2_counterexample :
    counterGet (keywordCountsOf [itemPyPy]) "python" = 2 ∧
    counterGet (keywordCountsOf [itemPyPy]) "python" ≠ 1 := by
  refine ⟨by decide, by decide⟩

/-- C2 (amended): the keyword table counts every occurrence of a token in every
seen title — a token repeated inside one seen title contributes once per
occurrence (no per-title deduplication), and occurrences across different seen
items accumulate. -/
theorem claim_C2_amended (items : List AppItem) (t : String) :
    counterGet (keywordCountsOf items) t
      = ((items.filter (fun i => i.seen)).map
          (fun i => (tokenize_title i.title).count t)).sum := by
  unfold keywordCountsOf
  rw [counterGet_foldl]
  simp [counterGet_nil]

/-- C6: the code does not deduplicate a candidate title's tokens before scoring.
On the items of the repository's own test
`test_recommend_keyword_from_seen_deduplicate_tokens`, the titles
"python python async" and "async async python" score 3 (not the deduplicated 2),
so the code returns them ordered before the later-published "python async" —
while the test (and the claim) require the order
`["unseen:no_duplicates", "unseen:duplicate_async", "unseen:duplicate_python"]`.
The claim's "in particular" example (single-occurrence titles) does hold. -/
theorem claim_C6_scoring :
    (recommend_keyword_from_seen dedupTestItems 10).map (fun i => i.item_id)
        = ["unseen:duplicate_async", "unseen:duplicate_python", "unseen:no_duplicates"] ∧
    (recommend_keyword_from_seen dedupTestItems 10).map (fun i => i.item_id)
        ≠ ["unseen:no_duplicates", "unseen:duplicate_async", "unseen:duplicate_python"] ∧
    (recommend_keyword_from_seen scoringExampleItems 20).map (fun i => i.item_id)
        = ["youtube:def456", "youtube:ghi789"] := by
  refine ⟨by decide, by decide, by decide⟩

/-- C10: whenever every seen item's title tokenizes to no tokens (in particular
when there are no seen items at all), the keyword table is empty, so
`recommend_keyword_from_seen` returns an empty ranked list — regardless of the
candidates available, no fallback occurs — and the recommender reports
`top_keywords` as an empty list. -/
theorem claim_C10_empty_table (items : List AppItem) (limit : Nat)
    (h : ∀ i ∈ items, i.seen = true → tokenize_title i.title = []) :
    recommend_keyword_from_seen items limit = [] ∧
    (KeywordFromSeenRecommender_recommend items limit).items = [] ∧
    (KeywordFromSeenRecommender_recommend items limit).meta.top_keywords = [] := by
  have hk := keywordCountsOf_empty h
  refine ⟨?_, ?_, ?_⟩
  · unfold recommend_keyword_from_seen
    rw [hk]
    rfl
  · show recommend_keyword_from_seen items limit = []
    unfold recommend_keyword_from_seen
    rw [hk]
    rfl
  · show extract_top_keywords items = []
    unfold extract_top_keywords
    rw [hk]
    rfl

/-- Witness for C10: one seen item whose title "!!!" has no tokens, plus an
unseen candidate; nothing is recommended and `top_keywords` is empty. -/
def punctuationItems : List AppItem :=
  [{ item_id := "seen:punct", source_type := "youtube", source_url := "u",
     title := "!!!", link := "l", published := ⟨2023, 12, 20, 10, 0, 0, 0⟩,
     seen := true },
   { item_id := "unseen:py", source_type := "youtube", source_url := "u",
     title := "Python Guide", link := "l", published := ⟨2023, 12, 21, 10, 0, 0, 0⟩,
     seen := false }]

/-- The unseen candidates among `items` (claim wording: "prefers candidates with
seen = false"). -/
def unseenOf (items : List AppItem) : List AppItem := items.filter (fun i => !i.seen)

/-- The candidate set of the claim: the unseen items, falling back to the full
candidate list when every candidate is seen. -/
def candidatesOf (items : List AppItem) : List AppItem :=
  if (unseenOf items).isEmpty then items else unseenOf items

/-- C8: `LatestRecommender` prefers unseen candidates and falls back to the full
set when all are seen; the result is sorted by published descending with ties by
`item_id` ascending, truncated to the limit (all items are returned when the
limit exceeds the candidate count); the metadata carries `filtered`,
`total_items` and `unseen_items`, with `filtered = false` in the all-seen
fallback case. -/
theorem claim_C8_latest (items : List AppItem) (limit : Nat) :
    (LatestRecommender_recommend items limit).items.Sorted latestKeyLe ∧
    (LatestRecommender_recommend items limit).items.length
      = min limit (candidatesOf items).length ∧
    (∀ x ∈ (LatestRecommender_recommend items limit).items, x ∈ candidatesOf items) ∧
    (unseenOf items ≠ [] →
      ∀ x ∈ (LatestRecommender_recommend items limit).items, x.seen = false) ∧
    ((candidatesOf items).length ≤ limit →
      (LatestRecommender_recommend items limit).items.Perm (candidatesOf items)) ∧
    (LatestRecommender_recommend items limit).meta.strategy = "latest" ∧
    (LatestRecommender_recommend items limit).meta.limit = limit ∧
    (LatestRecommender_recommend items limit).meta.filtered
      = decide (unseenOf items ≠ []) ∧
    (LatestRecommender_recommend items limit).meta.total_items = items.length ∧
    (LatestRecommender_recommend items limit).meta.unseen_items
      = (unseenOf items).length ∧
    ((∀ i ∈ items, i.seen = true) →
      (LatestRecommender_recommend items limit).meta.filtered = false) := by
  have hitems : (LatestRecommender_recommend items limit).items
      = (List.insertionSort latestKeyLe (candidatesOf items)).take limit := rfl
  have hsorted := List.sorted_insertionSort latestKeyLe (candidatesOf items)
  refine ⟨?_, ?_, ?_, ?_, ?_, rfl, rfl, ?_, rfl, rfl, ?_⟩
  · rw [hitems]
    exact hsorted.sublist (List.take_sublist _ _)
  · rw [hitems, List.length_take, List.length_insertionSort]
  · intro x hx
    rw [hitems] at hx
    have hx2 := List.mem_of_mem_take hx
    exact (List.mem_insertionSort latestKeyLe).mp hx2
  · intro hne x hx
    rw [hitems] at hx
    have hx2 := (List.mem_insertionSort latestKeyLe).mp (List.mem_of_mem_take hx)
    unfold candidatesOf at hx2
    rw [if_neg (by simpa [List.isEmpty_iff] using hne)] at hx2
    unfold unseenOf at hx2
    have := (List.mem_filter.mp hx2).2
    simpa using this
  · intro hle
    rw [hitems, List.take_of_length_le (by rw [List.length_insertionSort]; exact hle)]
    exact List.perm_insertionSort latestKeyLe (candidatesOf items)
  · show decide (0 < (items.filter (fun i => !i.seen)).length) = decide (unseenOf items ≠ [])
    rw [decide_eq_decide]
    unfold unseenOf
    exact List.length_pos
  · intro hall
    show decide (0 < (items.filter (fun i => !i.seen)).length) = false
    have hnil : items.filter (fun i => !i.seen) = [] := by
      rw [List.filter_eq_nil_iff]
      intro a ha
      simp [hall a ha]
    rw [hnil]
    rfl

/-- Witness for C8 at the spec's fallback example: both items seen, `filtered`
is reported `false`, the whole (fallback) candidate set is returned, ordered
`[A, B]` by published descending. -/
theorem claim_C8_witness :
    ((∀ i ∈ latestFallbackItems, i.seen = true) ∧
      (LatestRecommender_recommend latestFallbackItems 20).meta.filtered = false) ∧
    ((candidatesOf latestFallbackItems).length ≤ 20 ∧
      (LatestRecommender_recommend latestFallbackItems 20).items.Perm
        (candidatesOf latestFallbackItems)) ∧
    (LatestRecommender_recommend latestFallbackItems 20).items.map (fun i => i.item_id)
      = ["A", "B"] :=
  ⟨⟨by decide, (claim_C8_latest latestFallbackItems 20).2.2.2.2.2.2.2.2.2.2 (by decide)⟩,
   ⟨by decide, (claim_C8_latest latestFallbackItems 20).2.2.2.2.1 (by decide)⟩,
   by decide⟩

theorem claim_C10_witness :
    (∀ i ∈ punctuationItems, i.seen = true → tokenize_title i.title = []) ∧
    (recommend_keyword_from_seen punctuationItems 20 = [] ∧
      (KeywordFromSeenRecommender_recommend punctuationItems 20).items = [] ∧
      (KeywordFromSeenRecommender_recommend punctuationItems 20).meta.top_keywords = []) :=
  ⟨by decide, claim_C10_empty_table punctuationItems 20 (by decide)⟩

/-! ## Python values and dicts

The store and `Item.from_dict` handle dict-shaped records whose values are JSON
scalars or `datetime` objects.  (Nested arrays/objects inside an item are not
modelled; the repository's items are flat.)  Python dicts preserve insertion
order; assignment to an existing key keeps its position, assignment to a new key
appends. -/

inductive PyVal where
  | str (s : String)
  | num (n : Int)
  | bool (b : Bool)
  | null
  | dt (t : DT)
deriving DecidableEq, Repr

/-- Python truthiness of the modelled values. -/
def PyVal.truthy : PyVal → Bool
  | .str s => s ≠ ""
  | .num n => n ≠ 0
  | .bool b => b
  | .null => false
  | .dt _ => true

/-- An item dict: keys in insertion order. -/
abbrev Fields := List (String × PyVal)

/-- `d.get(k)` / `d[k]`. -/
def getVal (f : Fields) (k : String) : Option PyVal :=
  (f.find? (fun p => p.1 = k)).map (fun p => p.2)

/-- `d[k] = v`: replace in place, else append. -/
def setVal : Fields → String → PyVal → Fields
  | [], k, v => [(k, v)]
  | (k', v') :: rest, k, v =>
    if k' = k then (k, v) :: rest else (k', v') :: setVal rest k v

/-! ## `item.py`: the `Item` dataclass

Faithful to `src/tech_tracker/item.py`: the dataclass has fields `item_id`,
`source_type`, `source_url`, `title`, `link`, `published` — and no `seen` field
(the rest of the code base and the tests expect one; claim C4).  Non-`published`
fields are not type-checked by the constructor, so they hold arbitrary values.
All modelled datetimes are timezone-aware UTC, so `astimezone(timezone.utc)` is
the identity and the "naive datetime" `ValueError` branch of `from_dict` cannot
trigger in the model. -/

structure Item where
  item_id : PyVal
  source_type : PyVal
  source_url : PyVal
  title : PyVal
  link : PyVal
  published : DT
deriving DecidableEq, Repr

/-- Errors of `Item.from_dict` (`KeyError`, `ValueError`, `TypeError`). -/
inductive ItemErr where
  | keyError (field : String)
  | valueError
  | typeError
deriving DecidableEq, Repr

/-- `Item.to_dict`: all fields, with `published` rendered as the
`Z`-suffixed UTC ISO string.  No `seen` key is produced. -/
def Item.to_dict (it : Item) : Fields :=
  [("item_id", it.item_id), ("source_type", it.source_type),
   ("source_url", it.source_url), ("title", it.title), ("link", it.link),
   ("published", .str (dtToStr it.published))]

/-- The fields `Item.from_dict` requires, in the order it checks them. -/
def requiredFields : List String :=
  ["item_id", "source_type", "source_url", "title", "link", "published"]

/-- `Item.from_dict`: raise `KeyError` for the first missing required field;
parse a string `published` (must end in `Z`, then `fromisoformat` after
replacing the `Z` by `+00:00`), accept an aware `datetime`, reject other types.
The `seen` key, when present, is ignored. -/
def Item.from_dict (d : Fields) : Except ItemErr Item :=
  match requiredFields.find? (fun k => (getVal d k).isNone) with
  | some k => .error (.keyError k)
  | none =>
    let idv := (getVal d "item_id").getD .null
    let st := (getVal d "source_type").getD .null
    let su := (getVal d "source_url").getD .null
    let ti := (getVal d "title").getD .null
    let li := (getVal d "link").getD .null
    match (getVal d "published").getD .null with
    | .str s =>
      match s.data.getLast? with
      | some 'Z' =>
        match fromisoChars (s.data.dropLast ++ offsetChars) with
        | some t => .ok ⟨idv, st, su, ti, li, t⟩
        | none => .error .valueError
      | _ => .error .valueError
    | .dt t => .ok ⟨idv, st, su, ti, li, t⟩
    | _ => .error .typeError

/-- The round-trip dict of `test_item_from_dict_to_dict_round_trip`
(`tests/core/test_item_dataclass.py`), including its `"seen": False` entry. -/
def sampleItemDict : Fields :=
  [("item_id", .str "L7x2ufU1c9Y"),
   ("source_type", .str "youtube"),
   ("source_url", .str "https://www.youtube.com/channel/UCEbYhDd6c6vngsF5PQpFVWg"),
   ("title", .str "My thoughts on Y Combinator"),
   ("link", .str "https://www.youtube.com/watch?v=L7x2ufU1c9Y"),
   ("published", .str "2025-12-20T04:39:33Z"),
   ("seen", .bool false)]

/-- The `Item` value `from_dict` produces for `sampleItemDict`. -/
def sampleItem : Item :=
  { item_id := .str "L7x2ufU1c9Y"
    source_type := .str "youtube"
    source_url := .str "https://www.youtube.com/channel/UCEbYhDd6c6vngsF5PQpFVWg"
    title := .str "My thoughts on Y Combinator"
    link := .str "https://www.youtube.com/watch?v=L7x2ufU1c9Y"
    published := ⟨2025, 12, 20, 4, 39, 33, 0⟩ }

/-! ## `item_store.py`: `JsonItemStore`

The store file is modelled at the granularity `load_all` inspects:
* `none` — the file does not exist;
* `some .invalidJson` — the file exists but `json.load` fails;
* `some .notStoreDict` — valid JSON that is not a dict with an `"items"` key;
* `some .itemsNotList` — `"items"` is present but not a list;
* `some (.withItems elems)` — `"items"` is a list whose elements are either
  non-dict values (`.notDict`) or item dicts (`.item f`).

A file parsed from real JSON contains no `.dt` values (`JsonFile` below); the
model is total on the wider type. -/

inductive RawElem where
  | notDict
  | item (f : Fields)
deriving DecidableEq, Repr

inductive RawFile where
  | invalidJson
  | notStoreDict
  | itemsNotList
  | withItems (elems : List RawElem)
deriving DecidableEq, Repr

/-- Errors raised by `load_all`.  All but `attrError` are `ValueError`s (with
distinct messages); `attrError` models the `AttributeError` escaping
`_str_to_dt` when a truthy non-string `published` value reaches
`s.endswith('Z')`. -/
inductive LoadErr where
  | invalidJson
  | missingItems
  | itemsNotList
  | itemNotDict
  | badTimestamp
  | attrError
deriving DecidableEq, Repr

/-- Per-item timestamp conversion in `load_all`: if `published` is present and
truthy, parse it with `_str_to_dt` (a non-string raises `AttributeError`, an
unparseable string a `ValueError`); otherwise leave the item untouched. -/
def parsePublished (f : Fields) : Except LoadErr Fields :=
  match getVal f "published" with
  | some v =>
    if v.truthy then
      match v with
      | .str s =>
        match strToDt s with
        | some t => .ok (setVal f "published" (.dt t))
        | none => .error .badTimestamp
      | _ => .error .attrError
    else .ok f
  | none => .ok f

/-- The per-element loop of `load_all`: a non-dict element raises, otherwise the
item's timestamp is converted; the first error aborts the whole load. -/
def loadItems : List RawElem → Except LoadErr (List Fields)
  | [] => .ok []
  | .notDict :: _ => .error .itemNotDict
  | .item f :: rest =>
    match parsePublished f with
    | .error e => .error e
    | .ok f' =>
      match loadItems rest with
      | .error e => .error e
      | .ok rest' => .ok (f' :: rest')

/-- `JsonItemStore.load_all`. -/
def load_all : Option RawFile → Except LoadErr (List Fields)
  | none => .ok []
  | some .invalidJson => .error .invalidJson
  | some .notStoreDict => .error .missingItems
  | some .itemsNotList => .error .itemsNotList
  | some (.withItems elems) => loadItems elems

/-- Errors raised by `save_many` before the file is written: a merged item
without a `published` key (`KeyError`), an unparseable `published` string
(`ValueError` from `_str_to_dt` while grouping), and the propagated
`AttributeError` from a failing `load_all`.  `typeErr` and `nonStrId` mark
`published`/`item_id` values that are neither the datetimes nor the strings the
store's own data contains — Python would sort or compare them only in mixed
groups; the model rejects them uniformly.  Every error occurs before the
`open("w")`, so an error leaves the file unchanged. -/
inductive SaveErr where
  | keyError
  | valueError
  | typeErr
  | nonStrId
  | attrError
deriving DecidableEq, Repr

/-- The timestamp conversion both incoming-merge (lines 136–148) and the final
pre-write pass (lines 170–183) apply to a `published` value: datetimes are
rendered with `_dt_to_str`; strings are parsed and re-rendered, unparseable
strings are left as-is; other values are untouched. -/
def prepPublished : PyVal → PyVal
  | .dt t => .str (dtToStr t)
  | .str s =>
    match strToDt s with
    | some t => .str (dtToStr t)
    | none => .str s
  | v => v

/-- Apply `prepPublished` to a present-and-truthy `published` value. -/
def convertPublished (f : Fields) : Fields :=
  match getVal f "published" with
  | some v => if v.truthy then setVal f "published" (prepPublished v) else f
  | none => f

/-- The `existing_items` dict: keys (the `item_id` values) in insertion order. -/
abbrev IdMap := List (PyVal × Fields)

/-- `m[k] = v` on the id-keyed dict. -/
def mapSet : IdMap → PyVal → Fields → IdMap
  | [], k, v => [(k, v)]
  | (k', v') :: rest, k, v =>
    if k' = k then (k, v) :: rest else (k', v') :: mapSet rest k v

/-- `m[k]` lookup on the id-keyed dict. -/
def mapGet (m : IdMap) (k : PyVal) : Option Fields :=
  (m.find? (fun p => p.1 = k)).map (fun p => p.2)

/-- One step of the merge loops: insert/overwrite `tf f` under `f`'s truthy
`item_id`, skip items without one. -/
def upsertStep (tf : Fields → Fields) (m : IdMap) (f : Fields) : IdMap :=
  match getVal f "item_id" with
  | some idv => if idv.truthy then mapSet m idv (tf f) else m
  | none => m

/-- The common shape of both merge loops: for each item with a truthy
`item_id`, insert/overwrite `tf item` under that id; skip the rest. -/
def upsertAll (m : IdMap) (l : List Fields) (tf : Fields → Fields) : IdMap :=
  l.foldl (upsertStep tf) m

/-- `for item in l: item_id = item.get("item_id"); if item_id:
existing_items[item_id] = item`. -/
def buildExisting (l : List Fields) : IdMap := upsertAll [] l (fun f => f)

/-- The incoming-merge loop: skip items without a truthy `item_id`, convert the
copy's timestamp, insert/overwrite by id. -/
def mergeIncoming (m : IdMap) (xs : List Fields) : IdMap :=
  upsertAll m xs convertPublished

/-- `item["published"]` as the grouping key (`KeyError` when absent; strings are
parsed with `_str_to_dt`, raising `ValueError` when unparseable). -/
def entryTime (f : Fields) : Except SaveErr DT :=
  match getVal f "published" with
  | none => .error .keyError
  | some (.str s) =>
    match strToDt s with
    | some t => .ok t
    | none => .error .valueError
  | some (.dt t) => .ok t
  | some _ => .error .typeErr

/-- `x["item_id"]` as the in-group sort key (the store's ids are strings). -/
def entryIdStr (f : Fields) : Except SaveErr String :=
  match getVal f "item_id" with
  | some (.str s) => .ok s
  | _ => .error .nonStrId

/-- A merged entry with its precomputed sort keys: time, id, fields. -/
abbrev SortEnt := DT × String × Fields

/-- Compute the sort keys of every merged entry (first failure aborts). -/
def keyEntries : List Fields → Except SaveErr (List SortEnt)
  | [] => .ok []
  | f :: rest =>
    match entryTime f with
    | .error e => .error e
    | .ok t =>
      match entryIdStr f with
      | .error e => .error e
      | .ok i =>
        match keyEntries rest with
        | .error e => .error e
        | .ok rest' => .ok ((t, i, f) :: rest')

/-- `time_groups[time_key].append(item)`: extend the group with this exact key,
else open a new group at the end (dict insertion order). -/
def addToGroups : List (DT × List SortEnt) → SortEnt → List (DT × List SortEnt)
  | [], e => [(e.1, [e])]
  | (t, g) :: gs, e =>
    if t = e.1 then (t, g ++ [e]) :: gs else (t, g) :: addToGroups gs e

/-- Build `time_groups` by one pass over the entries. -/
def buildGroups (l : List SortEnt) : List (DT × List SortEnt) := l.foldl addToGroups []

/-- `sorted(time_groups.keys(), reverse=True)`: keys descending. -/
def groupGe (a b : DT × List SortEnt) : Prop :=
  DT.ltb b.1 a.1 = true ∨ a.1 = b.1

instance : DecidableRel groupGe := by
  intro a b; unfold groupGe; infer_instance

instance : IsTotal (DT × List SortEnt) groupGe := by
  constructor
  intro a b
  rcases h : DT.ltb b.1 a.1 with _ | _
  · rcases h' : DT.ltb a.1 b.1 with _ | _
    · exact Or.inl (Or.inr (DT.eq_of_not_ltb h' h))
    · exact Or.inr (Or.inl h')
  · exact Or.inl (Or.inl h)

instance : IsTrans (DT × List SortEnt) groupGe := by
  constructor
  intro a b c hab hbc
  rcases hab with hab | hab
  · rcases hbc with hbc | hbc
    · exact Or.inl (DT.ltb_trans hbc hab)
    · exact Or.inl (hbc ▸ hab)
  · rcases hbc with hbc | hbc
    · exact Or.inl (hab ▸ hbc)
    · exact Or.inr (hab.trans hbc)

/-- `sorted(group, key=lambda x: x["item_id"])`: ids ascending. -/
def entIdLe (a b : SortEnt) : Prop := pyStrLe a.2.1 b.2.1

instance : DecidableRel entIdLe := by
  intro a b; unfold entIdLe; infer_instance

instance : IsTotal SortEnt entIdLe := by
  constructor
  intro a b
  exact pyStrLe_total a.2.1 b.2.1

instance : IsTrans SortEnt entIdLe := by
  constructor
  intro a b c
  exact pyStrLe_trans

/-- The grouping sort of `save_many` (lines 152–168): group entries by equal
published time, sort the groups' keys descending, sort each group by `item_id`
ascending, and concatenate. -/
def pyGroupedSort (l : List SortEnt) : List SortEnt :=
  ((List.insertionSort groupGe (buildGroups l)).map
    (fun g => List.insertionSort entIdLe g.2)).flatten

/-- Merge into an id-keyed map, sort canonically, convert timestamps, and
produce the written file. -/
def mergeAndWrite (base : IdMap) (xs : List Fields) : Except SaveErr RawFile :=
  match keyEntries ((mergeIncoming base xs).map (fun kv => kv.2)) with
  | .error e => .error e
  | .ok keyed =>
    .ok (.withItems ((pyGroupedSort keyed).map
      (fun e => RawElem.item (convertPublished e.2.2))))

/-- `JsonItemStore.save_many`: load the existing store (a `ValueError` there is
swallowed and the merge starts from an empty dict; the `AttributeError` case
propagates), merge the incoming items by id, sort canonically and rewrite the
whole file. -/
def save_many (fs : Option RawFile) (xs : List Fields) : Except SaveErr RawFile :=
  match load_all fs with
  | .ok l => mergeAndWrite (buildExisting l) xs
  | .error .attrError => .error .attrError
  | .error _ => mergeAndWrite [] xs

/-- The file state after `save_many`: the rewritten file on success, the
unchanged previous state when an exception propagates (every `SaveErr` is
raised before `open("w")` truncates the file). -/
def stateAfter (fs : Option RawFile) (xs : List Fields) : Option RawFile :=
  match save_many fs xs with
  | .ok r => some r
  | .error _ => fs

/-! ## Well-formedness predicates for store inputs -/

/-- A dict is JSON-serializable apart from its `published` datetime: `.dt`
values may appear only under `"published"`, and any such datetime is a real
(valid) Python datetime. -/
def SerializableItem (f : Fields) : Prop :=
  ∀ p ∈ f, ∀ t : DT, p.2 = PyVal.dt t → (p.1 = "published" ∧ t.Valid)

/-- A dict parsed from JSON: no `.dt` values at all. -/
def JsonFields (f : Fields) : Prop := ∀ p ∈ f, ∀ t : DT, p.2 ≠ PyVal.dt t

/-- A store file on disk: its items were parsed from JSON. -/
def JsonFile : Option RawFile → Prop
  | some (.withItems elems) => ∀ f, RawElem.item f ∈ elems → JsonFields f
  | _ => True

/-! ## Dict lemmas -/

theorem getVal_setVal_self (f : Fields) (k : String) (v : PyVal) :
    getVal (setVal f k v) k = some v := by
  induction f with
  | nil => simp [setVal, getVal, List.find?]
  | cons p rest ih =>
    obtain ⟨k', v'⟩ := p
    by_cases h : k' = k
    · subst h
      simp [setVal, getVal, List.find?]
    · simpa [setVal, getVal, List.find?, h] using ih

theorem getVal_setVal_ne (f : Fields) {k k' : String} (v : PyVal) (h : k' ≠ k) :
    getVal (setVal f k v) k' = getVal f k' := by
  induction f with
  | nil => simp [setVal, getVal, List.find?, Ne.symm h]
  | cons p rest ih =>
    obtain ⟨k'', v''⟩ := p
    by_cases h2 : k'' = k
    · subst h2
      simp [setVal, getVal, List.find?, Ne.symm h, h]
    · by_cases h3 : k'' = k'
      · subst h3
        simp [setVal, getVal, List.find?, h2]
      · simpa [setVal, getVal, List.find?, h2, h3] using ih

theorem setVal_setVal (f : Fields) (k : String) (v v' : PyVal) :
    setVal (setVal f k v) k v' = setVal f k v' := by
  induction f with
  | nil => simp [setVal]
  | cons p rest ih =>
    obtain ⟨k'', v''⟩ := p
    by_cases h : k'' = k
    · subst h
      simp [setVal]
    · simp [setVal, h, ih]

theorem setVal_getVal_self {f : Fields} {k : String} {v : PyVal}
    (h : getVal f k = some v) : setVal f k v = f := by
  induction f with
  | nil => simp [getVal, List.find?] at h
  | cons p rest ih =>
    obtain ⟨k'', v''⟩ := p
    by_cases h2 : k'' = k
    · subst h2
      have hv : v'' = v := by
        simp [getVal, List.find?] at h
        exact h
      rw [setVal]
      simp [hv]
    · rw [setVal, if_neg h2]
      have h' : getVal rest k = some v := by
        simpa [getVal, List.find?, h2] using h
      rw [ih h']

/-! ## Conversion lemmas -/

theorem strToDt_empty : strToDt "" = none := rfl

/-- What `load_all` turns a stored entry into, on its success paths: parse a
present, truthy, parseable string timestamp; leave everything else. -/
def loadBackEntry (f : Fields) : Fields :=
  match getVal f "published" with
  | some (.str s) =>
    match strToDt s with
    | some t => setVal f "published" (.dt t)
    | none => f
  | _ => f

theorem convertPublished_id_key (f : Fields) (k : String) (hk : k ≠ "published") :
    getVal (convertPublished f) k = getVal f k := by
  unfold convertPublished
  match h : getVal f "published" with
  | none => simp only [h]
  | some v =>
    simp only [h]
    by_cases ht : v.truthy
    · simp only [ht, if_pos]
      exact getVal_setVal_ne f _ hk
    · simp [ht]

theorem loadBackEntry_id_key (f : Fields) (k : String) (hk : k ≠ "published") :
    getVal (loadBackEntry f) k = getVal f k := by
  unfold loadBackEntry
  match h : getVal f "published" with
  | none => simp only [h]
  | some (.str s) =>
    simp only [h]
    match hp : strToDt s with
    | some t =>
      simp only [hp]
      exact getVal_setVal_ne f _ hk
    | none => simp only [hp]
  | some (.num n) => simp only [h]
  | some (.bool b) => simp only [h]
  | some .null => simp only [h]
  | some (.dt t) => simp only [h]

/-- The two shapes a merged entry's `published` can have when `entryTime`
succeeds. -/
theorem entryTime_ok_cases {f : Fields} {t : DT} (h : entryTime f = .ok t) :
    getVal f "published" = some (.dt t) ∨
      ∃ s, getVal f "published" = some (.str s) ∧ strToDt s = some t := by
  unfold entryTime at h
  split at h
  · simp at h
  · rename_i s hv
    split at h
    · rename_i t' hp
      injection h with h
      subst h
      exact Or.inr ⟨s, hv, hp⟩
    · simp at h
  · rename_i t' hv
    injection h with h
    subst h
    exact Or.inl hv
  · simp at h

/-- A valid datetime survives the convert / parse cycle:
`convertPublished` renders it to the canonical string and `parsePublished`
parses that string back. -/
theorem convert_of_entryTime {f : Fields} {t : DT} (h : entryTime f = .ok t)
    (hvalid : ∀ t', getVal f "published" = some (.dt t') → t'.Valid) :
    t.Valid ∧
    convertPublished f = setVal f "published" (.str (dtToStr t)) := by
  rcases entryTime_ok_cases h with hdt | ⟨s, hs, hp⟩
  · have hv := hvalid t hdt
    refine ⟨hv, ?_⟩
    unfold convertPublished
    simp only [hdt, PyVal.truthy, if_true, prepPublished]
  · have hv := strToDt_valid hp
    refine ⟨hv, ?_⟩
    unfold convertPublished
    have hne : s ≠ "" := by
      intro hcon
      rw [hcon, strToDt_empty] at hp
      exact absurd hp (by simp)
    simp [hs, PyVal.truthy, prepPublished, hp, hne]

/-- A converted entry at a valid time `t` loads back to `published = t` and
writes as the canonical string. -/
theorem converted_entry_facts {f : Fields} {t : DT} (h : entryTime f = .ok t)
    (hvalid : ∀ t', getVal f "published" = some (.dt t') → t'.Valid) :
    getVal (convertPublished f) "published" = some (.str (dtToStr t)) ∧
    parsePublished (convertPublished f) = .ok (setVal f "published" (.dt t)) ∧
    loadBackEntry (convertPublished f) = setVal f "published" (.dt t) := by
  obtain ⟨hv, hconv⟩ := convert_of_entryTime h hvalid
  have hget : getVal (convertPublished f) "published" = some (.str (dtToStr t)) := by
    rw [hconv]
    exact getVal_setVal_self f _ _
  have hround : strToDt (dtToStr t) = some t := strToDt_dtToStr hv
  have htruthy : (PyVal.str (dtToStr t)).truthy = true := by
    simp [PyVal.truthy, dtToStr_ne_empty t]
  refine ⟨hget, ?_, ?_⟩
  · unfold parsePublished
    simp only [hconv, getVal_setVal_self, htruthy, if_true, hround, setVal_setVal]
  · unfold loadBackEntry
    simp only [hconv, getVal_setVal_self, hround, setVal_setVal]

/-! ## Claim C7: `load_all` error classification -/

/-- A `published` value that cannot be parsed as a UTC instant: an unparseable
string, or any non-string value. -/
def pubUnparseable : PyVal → Prop
  | .str s => strToDt s = none
  | _ => True

/-- An element of the `items` array that makes `load_all` raise: a non-dict
element, or an item whose `published` is present, truthy, and unparseable. -/
def badElem (e : RawElem) : Prop :=
  e = .notDict ∨
    ∃ f v, e = .item f ∧ getVal f "published" = some v ∧ v.truthy = true ∧ pubUnparseable v

/-- The amended raise condition for `load_all`: structural damage, or some item
whose `published` field is present, **truthy** (non-empty), and unparseable.
A present-but-falsy `published` (for example the empty string) is skipped
without an error, which is what corrects the original claim. -/
def AmendedRaises : Option RawFile → Prop
  | none => False
  | some .invalidJson => True
  | some .notStoreDict => True
  | some .itemsNotList => True
  | some (.withItems elems) => ∃ e ∈ elems, badElem e

theorem parsePublished_error_iff (f : Fields) :
    (∃ e, parsePublished f = .error e) ↔
      ∃ v, getVal f "published" = some v ∧ v.truthy = true ∧ pubUnparseable v := by
  unfold parsePublished
  constructor
  · rintro ⟨e, he⟩
    split at he
    · rename_i v hv
      split at he
      · rename_i ht
        split at he
        · rename_i s
          split at he
          · simp at he
          · rename_i hp
            exact ⟨.str s, hv, ht, hp⟩
        · rename_i hnostr
          refine ⟨v, hv, ht, ?_⟩
          unfold pubUnparseable
          match v, hnostr with
          | .num n, _ => trivial
          | .bool b, _ => trivial
          | .null, _ => trivial
          | .dt t, _ => trivial
          | .str s, hnostr => exact absurd rfl (hnostr s)
      · simp at he
    · simp at he
  · rintro ⟨v, hv, ht, hu⟩
    simp only [hv, ht, if_true]
    match v, ht, hu with
    | .str s, _, hu =>
      unfold pubUnparseable at hu
      simp only [hu]
      exact ⟨.badTimestamp, rfl⟩
    | .num n, _, _ => exact ⟨.attrError, rfl⟩
    | .bool b, _, _ => exact ⟨.attrError, rfl⟩
    | .dt t, _, _ => exact ⟨.attrError, rfl⟩

theorem parsePublished_badTimestamp {f : Fields}
    (h : parsePublished f = .error .badTimestamp) :
    ∃ s, getVal f "published" = some (.str s) ∧ s ≠ "" ∧ strToDt s = none := by
  unfold parsePublished at h
  split at h
  · rename_i v hv
    split at h
    · rename_i ht
      split at h
      · rename_i s
        split at h
        · simp at h
        · rename_i hp
          refine ⟨s, hv, ?_, hp⟩
          intro hcon
          subst hcon
          simp [PyVal.truthy] at ht
      · simp at h
    · simp at h
  · simp at h

theorem loadItems_error_iff (elems : List RawElem) :
    (∃ e, loadItems elems = .error e) ↔ ∃ el ∈ elems, badElem el := by
  induction elems with
  | nil => simp [loadItems]
  | cons hd rest ih =>
    match hd with
    | .notDict =>
      simp only [loadItems]
      constructor
      · intro _
        exact ⟨.notDict, by simp, Or.inl rfl⟩
      · intro _
        exact ⟨.itemNotDict, rfl⟩
    | .item f =>
      simp only [loadItems]
      constructor
      · rintro ⟨e, he⟩
        split at he
        · rename_i err hp
          refine ⟨.item f, by simp, Or.inr ?_⟩
          have := (parsePublished_error_iff f).mp ⟨err, hp⟩
          obtain ⟨v, hv, ht, hu⟩ := this
          exact ⟨f, v, rfl, hv, ht, hu⟩
        · rename_i f' hp
          split at he
          · rename_i err2 hr
            obtain ⟨el, hel, hbad⟩ := ih.mp ⟨err2, hr⟩
            exact ⟨el, by simp [hel], hbad⟩
          · simp at he
      · rintro ⟨el, hel, hbad⟩
        rcases List.mem_cons.mp hel with heq | hmem
        · subst heq
          rcases hbad with hbad | ⟨f', v, hf, hv, ht, hu⟩
          · simp at hbad
          · injection hf with hf
            subst hf
            obtain ⟨e, he⟩ := (parsePublished_error_iff f).mpr ⟨v, hv, ht, hu⟩
            rw [he]
            exact ⟨e, rfl⟩
        · match hp : parsePublished f with
          | .error e => exact ⟨e, by simp [hp]⟩
          | .ok f' =>
            obtain ⟨e, he⟩ := ih.mpr ⟨el, hmem, hbad⟩
            simp only [he]
            exact ⟨e, rfl⟩

theorem loadItems_badTimestamp {elems : List RawElem}
    (h : loadItems elems = .error .badTimestamp) :
    ∃ f, RawElem.item f ∈ elems ∧
      ∃ s, getVal f "published" = some (.str s) ∧ s ≠ "" ∧ strToDt s = none := by
  induction elems with
  | nil => simp [loadItems] at h
  | cons hd rest ih =>
    match hd with
    | .notDict =>
      simp only [loadItems] at h
      injection h with h
      exact absurd h (by simp)
    | .item f =>
      simp only [loadItems] at h
      split at h
      · rename_i err hp
        injection h with h
        subst h
        obtain ⟨s, hs, hne, hnone⟩ := parsePublished_badTimestamp hp
        exact ⟨f, by simp, s, hs, hne, hnone⟩
      · rename_i f' hp
        split at h
        · rename_i err2 hr
          injection h with h
          subst h
          obtain ⟨g, hg, rest'⟩ := ih hr
          exact ⟨g, by simp [hg], rest'⟩
        · simp at h

/-- C7 (amended): `load_all` on a missing file returns the empty list; it
raises exactly when the file exists and is structurally broken (invalid JSON,
no `items` key, `items` not a list, a non-dict element) or some element's
`published` field is present, truthy (non-empty), and cannot be parsed as a UTC
instant; and the malformed-timestamp failure is distinguishable from the other
malformed-item failures.  A present-but-falsy `published` value (such as the
empty string) is skipped without an error — the correction to the claim. -/
theorem claim_C7_load_errors :
    load_all none = .ok [] ∧
    (∀ fs, (∃ e, load_all fs = .error e) ↔ AmendedRaises fs) ∧
    (∀ elems, load_all (some (.withItems elems)) = .error .badTimestamp →
      ∃ f, RawElem.item f ∈ elems ∧
        ∃ s, getVal f "published" = some (.str s) ∧ s ≠ "" ∧ strToDt s = none) := by
  refine ⟨rfl, ?_, ?_⟩
  · intro fs
    match fs with
    | none => simp [load_all, AmendedRaises]
    | some .invalidJson =>
      simp only [load_all, AmendedRaises, iff_true]
      exact ⟨.invalidJson, rfl⟩
    | some .notStoreDict =>
      simp only [load_all, AmendedRaises, iff_true]
      exact ⟨.missingItems, rfl⟩
    | some .itemsNotList =>
      simp only [load_all, AmendedRaises, iff_true]
      exact ⟨.itemsNotList, rfl⟩
    | some (.withItems elems) =>
      simpa only [load_all, AmendedRaises] using loadItems_error_iff elems
  · intro elems h
    exact loadItems_badTimestamp h

/-- C7 (counterexample): an item whose `published` is the empty string — a
value that cannot be parsed as a UTC instant — is loaded without any error,
refuting "raises exactly when some element's `published` cannot be parsed". -/
def c7EmptyPubItem : Fields := [("item_id", .str "x"), ("published", .str "")]

def c7EmptyPubFile : Option RawFile := some (.withItems [.item c7EmptyPubItem])

theorem claim_C7_counterexample :
    getVal c7EmptyPubItem "published" = some (.str "") ∧
    strToDt "" = none ∧
    load_all c7EmptyPubFile = .ok [c7EmptyPubItem] := by
  refine ⟨by decide, rfl, by rfl⟩

/-- Witness for C7: the amended raise-condition biconditional applied at a
concrete corrupt-timestamp store. -/
def c7BadTsItem : Fields := [("item_id", .str "bad"), ("published", .str "not a date")]

theorem claim_C7_witness :
    (AmendedRaises (some (.withItems [.item c7BadTsItem])) ∧
      ∃ e, load_all (some (.withItems [.item c7BadTsItem])) = .error e) ∧
    (load_all (some (.withItems [.item c7BadTsItem])) = .error .badTimestamp ∧
      ∃ f, RawElem.item f ∈ [RawElem.item c7BadTsItem] ∧
        ∃ s, getVal f "published" = some (.str s) ∧ s ≠ "" ∧ strToDt s = none) := by
  have h2 := (claim_C7_load_errors.2.1 (some (.withItems [.item c7BadTsItem]))).mpr
  have h3 := claim_C7_load_errors.2.2 [.item c7BadTsItem]
  have hbad : AmendedRaises (some (.withItems [.item c7BadTsItem])) := by
    refine ⟨.item c7BadTsItem, by simp, Or.inr ?_⟩
    refine ⟨c7BadTsItem, .str "not a date", rfl, by decide, by decide, by rfl⟩
  have hload : load_all (some (.withItems [.item c7BadTsItem])) = .error .badTimestamp := by
    rfl
  exact ⟨⟨hbad, h2 hbad⟩, hload, h3 hload⟩

/-! ## `IdMap` lemmas -/

theorem mapSet_key_mem (m : IdMap) (k : PyVal) (v : Fields) :
    ∃ kv ∈ mapSet m k v, kv.1 = k := by
  induction m with
  | nil => exact ⟨(k, v), by simp [mapSet], rfl⟩
  | cons p rest ih =>
    obtain ⟨k', v'⟩ := p
    by_cases h : k' = k
    · exact ⟨(k, v), by simp [mapSet, h], rfl⟩
    · obtain ⟨kv, hmem, hkey⟩ := ih
      exact ⟨kv, by simp [mapSet, h, hmem], hkey⟩

theorem mapSet_keys_mono {m : IdMap} {kv : PyVal × Fields} (hmem : kv ∈ m)
    (k : PyVal) (v : Fields) : ∃ kv' ∈ mapSet m k v, kv'.1 = kv.1 := by
  induction m with
  | nil => simp at hmem
  | cons p rest ih =>
    obtain ⟨k', v'⟩ := p
    by_cases h : k' = k
    · subst h
      rcases List.mem_cons.mp hmem with heq | hmem'
      · exact ⟨(k', v), by simp [mapSet], by rw [heq]⟩
      · exact ⟨kv, by simp [mapSet, hmem'], rfl⟩
    · rcases List.mem_cons.mp hmem with heq | hmem'
      · exact ⟨(k', v'), by simp [mapSet, h], by rw [heq]⟩
      · obtain ⟨kv', hmem'', hkey⟩ := ih hmem'
        exact ⟨kv', by simp [mapSet, h, hmem''], hkey⟩

theorem upsertStep_key_mono (tf : Fields → Fields) (f : Fields) {m : IdMap} {k : PyVal}
    (h : ∃ kv ∈ m, kv.1 = k) : ∃ kv ∈ upsertStep tf m f, kv.1 = k := by
  obtain ⟨kv, hmem, hkey⟩ := h
  unfold upsertStep
  match hid : getVal f "item_id" with
  | none => exact ⟨kv, hmem, hkey⟩
  | some idv =>
    by_cases ht : idv.truthy
    · simp only [ht, if_true]
      obtain ⟨kv', hmem', hkey'⟩ := mapSet_keys_mono hmem idv (tf f)
      exact ⟨kv', hmem', hkey'.trans hkey⟩
    · simp only [ht, if_false]
      exact ⟨kv, hmem, hkey⟩

theorem upsertAll_key_mono {m : IdMap} {k : PyVal} (h : ∃ kv ∈ m, kv.1 = k)
    (l : List Fields) (tf : Fields → Fields) : ∃ kv ∈ upsertAll m l tf, kv.1 = k := by
  induction l generalizing m with
  | nil => exact h
  | cons f l ih =>
    show ∃ kv ∈ upsertAll (upsertStep tf m f) l tf, kv.1 = k
    exact ih (upsertStep_key_mono tf f h)

theorem upsertAll_key_of_mem {l : List Fields} {f : Fields} (hf : f ∈ l) {idv : PyVal}
    (hid : getVal f "item_id" = some idv) (ht : idv.truthy = true)
    (m : IdMap) (tf : Fields → Fields) : ∃ kv ∈ upsertAll m l tf, kv.1 = idv := by
  induction l generalizing m with
  | nil => simp at hf
  | cons g l ih =>
    rcases List.mem_cons.mp hf with heq | hmem
    · subst heq
      show ∃ kv ∈ upsertAll (upsertStep tf m f) l tf, kv.1 = idv
      apply upsertAll_key_mono _ l tf
      unfold upsertStep
      simp only [hid, ht, if_true]
      exact mapSet_key_mem m idv (tf f)
    · exact ih hmem _

theorem mapSet_id_agree {m : IdMap} (hm : ∀ kv ∈ m, getVal kv.2 "item_id" = some kv.1)
    {k : PyVal} {v : Fields} (hv : getVal v "item_id" = some k) :
    ∀ kv ∈ mapSet m k v, getVal kv.2 "item_id" = some kv.1 := by
  induction m with
  | nil =>
    intro kv hkv
    simp [mapSet] at hkv
    rw [hkv]
    exact hv
  | cons p rest ih =>
    obtain ⟨k', v'⟩ := p
    intro kv hkv
    by_cases hk : k' = k
    · rw [mapSet, if_pos hk] at hkv
      rcases List.mem_cons.mp hkv with heq | hmem
      · rw [heq]
        exact hv
      · exact hm kv (by simp [hmem])
    · rw [mapSet, if_neg hk] at hkv
      rcases List.mem_cons.mp hkv with heq | hmem
      · rw [heq]
        exact hm (k', v') (by simp)
      · exact ih (fun kv h => hm kv (by simp [h])) kv hmem

/-- Every entry of the merged map carries its key as its own `item_id` field
(provided `tf` preserves `item_id`, which the identity and `convertPublished`
do). -/
theorem upsertAll_id_agree {m : IdMap} (hm : ∀ kv ∈ m, getVal kv.2 "item_id" = some kv.1)
    {tf : Fields → Fields} (htf : ∀ f, getVal (tf f) "item_id" = getVal f "item_id")
    (l : List Fields) : ∀ kv ∈ upsertAll m l tf, getVal kv.2 "item_id" = some kv.1 := by
  induction l generalizing m with
  | nil => exact hm
  | cons f l ih =>
    apply ih
    intro kv hkv
    unfold upsertStep at hkv
    match hid : getVal f "item_id" with
    | none =>
      rw [hid] at hkv
      exact hm kv hkv
    | some idv =>
      simp only [hid] at hkv
      by_cases ht : idv.truthy
      · rw [if_pos ht] at hkv
        exact mapSet_id_agree hm (by rw [htf f, hid]) kv hkv
      · rw [if_neg ht] at hkv
        exact hm kv hkv

/-! ## Grouping-sort lemmas -/

theorem addToGroups_flatten_perm (gs : List (DT × List SortEnt)) (e : SortEnt) :
    (((addToGroups gs e).map (fun g => g.2)).flatten).Perm
      (e :: ((gs.map (fun g => g.2)).flatten)) := by
  induction gs with
  | nil => simp [addToGroups]
  | cons p gs ih =>
    obtain ⟨t, g⟩ := p
    by_cases h : t = e.1
    · simp only [addToGroups, if_pos h, List.map_cons, List.flatten_cons]
      rw [List.append_assoc]
      exact List.perm_middle
    · simp only [addToGroups, if_neg h, List.map_cons, List.flatten_cons]
      have h1 : (g ++ ((addToGroups gs e).map (fun g => g.2)).flatten).Perm
          (g ++ (e :: (gs.map (fun g => g.2)).flatten)) := ih.append_left g
      have h2 : (g ++ (e :: (gs.map (fun g => g.2)).flatten)).Perm
          (e :: (g ++ (gs.map (fun g => g.2)).flatten)) := List.perm_middle
      exact h1.trans h2

theorem buildGroups_flatten_perm (l : List SortEnt) :
    (((buildGroups l).map (fun g => g.2)).flatten).Perm l := by
  suffices h : ∀ gs : List (DT × List SortEnt),
      (((l.foldl addToGroups gs).map (fun g => g.2)).flatten).Perm
        (((gs.map (fun g => g.2)).flatten) ++ l) by
    simpa [buildGroups] using h []
  induction l with
  | nil => intro gs; simp
  | cons e l ih =>
    intro gs
    show (((l.foldl addToGroups (addToGroups gs e)).map (fun g => g.2)).flatten).Perm _
    have h1 := ih (addToGroups gs e)
    have h2 : ((((addToGroups gs e).map (fun g => g.2)).flatten) ++ l).Perm
        ((e :: ((gs.map (fun g => g.2)).flatten)) ++ l) :=
      (addToGroups_flatten_perm gs e).append_right l
    have h3 : ((e :: ((gs.map (fun g => g.2)).flatten)) ++ l).Perm
        (((gs.map (fun g => g.2)).flatten) ++ e :: l) := by
      simp only [List.cons_append]
      exact List.perm_middle.symm
    exact (h1.trans h2).trans h3

theorem flatten_map_sort_perm (gs : List (DT × List SortEnt)) :
    ((gs.map (fun g => List.insertionSort entIdLe g.2)).flatten).Perm
      ((gs.map (fun g => g.2)).flatten) := by
  induction gs with
  | nil => simp
  | cons p gs ih =>
    simp only [List.map_cons, List.flatten_cons]
    exact (List.perm_insertionSort entIdLe p.2).append ih

theorem pyGroupedSort_perm (l : List SortEnt) : (pyGroupedSort l).Perm l := by
  unfold pyGroupedSort
  have h1 := flatten_map_sort_perm (List.insertionSort groupGe (buildGroups l))
  have h2 := ((List.perm_insertionSort groupGe (buildGroups l)).map (fun g => g.2)).flatten
  exact (h1.trans h2).trans (buildGroups_flatten_perm l)

/-! ## `keyEntries` lemmas -/

/-- Default-valued key computations (equal to the real ones whenever
`keyEntries` succeeds). -/
def timeOfD (f : Fields) : DT :=
  match entryTime f with
  | .ok t => t
  | .error _ => ⟨0, 0, 0, 0, 0, 0, 0⟩

def idOfD (f : Fields) : String :=
  match entryIdStr f with
  | .ok i => i
  | .error _ => ""

def keyOf (f : Fields) : SortEnt := (timeOfD f, idOfD f, f)

theorem keyEntries_ok_eq {l : List Fields} {K : List SortEnt}
    (h : keyEntries l = .ok K) : K = l.map keyOf := by
  induction l generalizing K with
  | nil =>
    simp only [keyEntries] at h
    injection h with h
    simp [← h]
  | cons f l ih =>
    simp only [keyEntries] at h
    split at h
    · simp at h
    · rename_i t hT
      split at h
      · simp at h
      · rename_i i hI
        split at h
        · simp at h
        · rename_i rest hR
          injection h with h
          subst h
          rw [List.map_cons, ih hR]
          have ht : timeOfD f = t := by unfold timeOfD; rw [hT]
          have hi : idOfD f = i := by unfold idOfD; rw [hI]
          rw [keyOf, ht, hi]

theorem keyEntries_ok_mem {l : List Fields} {K : List SortEnt}
    (h : keyEntries l = .ok K) :
    ∀ e ∈ K, e.2.2 ∈ l ∧ entryTime e.2.2 = .ok e.1 ∧ entryIdStr e.2.2 = .ok e.2.1 := by
  induction l generalizing K with
  | nil =>
    simp only [keyEntries] at h
    injection h with h
    subst h
    intro e he
    simp at he
  | cons f l ih =>
    simp only [keyEntries] at h
    split at h
    · simp at h
    · rename_i t hT
      split at h
      · simp at h
      · rename_i i hI
        split at h
        · simp at h
        · rename_i rest hR
          injection h with h
          subst h
          intro e he
          rcases List.mem_cons.mp he with heq | hmem
          · subst heq
            exact ⟨by simp, hT, hI⟩
          · obtain ⟨h1, h2, h3⟩ := ih hR e hmem
            exact ⟨by simp [h1], h2, h3⟩

theorem keyEntries_ok_of_forall {l : List Fields}
    (h : ∀ f ∈ l, (∃ t, entryTime f = .ok t) ∧ ∃ i, entryIdStr f = .ok i) :
    keyEntries l = .ok (l.map keyOf) := by
  induction l with
  | nil => rfl
  | cons f l ih =>
    obtain ⟨⟨t, hT⟩, ⟨i, hI⟩⟩ := h f (by simp)
    have hrest := ih (fun g hg => h g (by simp [hg]))
    simp only [keyEntries, hT, hI, hrest, List.map_cons]
    have ht : timeOfD f = t := by unfold timeOfD; rw [hT]
    have hi : idOfD f = i := by unfold idOfD; rw [hI]
    rw [keyOf, ht, hi]

/-! ## Claim C3: `save_many` merge semantics -/

/-- On a successful write, every key of the merged map owns an item in the
written array. -/
theorem mergeAndWrite_keys {base : IdMap}
    (hbase : ∀ kv ∈ base, getVal kv.2 "item_id" = some kv.1)
    (xs : List Fields) {out : List RawElem}
    (hok : mergeAndWrite base xs = .ok (.withItems out)) :
    ∀ kv ∈ mergeIncoming base xs,
      ∃ f, RawElem.item f ∈ out ∧ getVal f "item_id" = some kv.1 := by
  unfold mergeAndWrite at hok
  split at hok
  · simp at hok
  · rename_i K hK
    injection hok with hok
    injection hok with hok
    intro kv hkv
    have hmergedid : getVal kv.2 "item_id" = some kv.1 :=
      upsertAll_id_agree hbase (fun f => convertPublished_id_key f "item_id" (by decide))
        xs kv hkv
    have hval : kv.2 ∈ (mergeIncoming base xs).map (fun kv => kv.2) :=
      List.mem_map.mpr ⟨kv, hkv, rfl⟩
    have hKeq := keyEntries_ok_eq hK
    have hinK : keyOf kv.2 ∈ K := by
      rw [hKeq]
      exact List.mem_map.mpr ⟨kv.2, hval, rfl⟩
    have hinS : keyOf kv.2 ∈ pyGroupedSort K := ((pyGroupedSort_perm K).mem_iff).mpr hinK
    refine ⟨convertPublished (keyOf kv.2).2.2, ?_, ?_⟩
    · rw [← hok]
      exact List.mem_map.mpr ⟨keyOf kv.2, hinS, rfl⟩
    · show getVal (convertPublished kv.2) "item_id" = some kv.1
      rw [convertPublished_id_key kv.2 "item_id" (by decide)]
      exact hmergedid

/-- C3 (amended): an error in `save_many` is raised before the file is opened
for writing, so the state is unchanged; on a successful write every incoming
item with a truthy `item_id` is present in the rewritten file — but items
already stored are preserved only when loading the existing store succeeds.
When `load_all` fails with a storage error, the merge silently restarts from an
empty store (the counterexample below shows stored items lost without any
exception). -/
theorem claim_C3_save_merge (fs : Option RawFile) (xs : List Fields) :
    (∀ e, save_many fs xs = .error e → stateAfter fs xs = fs) ∧
    (∀ out, save_many fs xs = .ok (.withItems out) →
      (∀ x ∈ xs, ∀ idv, getVal x "item_id" = some idv → idv.truthy = true →
        ∃ f, RawElem.item f ∈ out ∧ getVal f "item_id" = some idv) ∧
      (∀ l, load_all fs = .ok l → ∀ g ∈ l, ∀ idv, getVal g "item_id" = some idv →
        idv.truthy = true →
        ∃ f, RawElem.item f ∈ out ∧ getVal f "item_id" = some idv)) := by
  constructor
  · intro e he
    unfold stateAfter
    rw [he]
  · intro out hok
    unfold save_many at hok
    match hl : load_all fs with
    | .ok l =>
      simp only [hl] at hok
      have hbase : ∀ kv ∈ buildExisting l, getVal kv.2 "item_id" = some kv.1 :=
        upsertAll_id_agree (by simp) (fun f => rfl) l
      constructor
      · intro x hx idv hid ht
        obtain ⟨kv, hkv, hkey⟩ :=
          upsertAll_key_of_mem hx hid ht (buildExisting l) convertPublished
        obtain ⟨f, hf, hfid⟩ := mergeAndWrite_keys hbase xs hok kv hkv
        exact ⟨f, hf, by rw [hfid, hkey]⟩
      · intro l' hl' g hg idv hid ht
        injection hl' with hl'
        subst hl'
        obtain ⟨kv, hkv, hkey⟩ :=
          upsertAll_key_of_mem hg hid ht ([] : IdMap) (fun f => f)
        obtain ⟨kv2, hkv2, hkey2⟩ :=
          upsertAll_key_mono ⟨kv, hkv, rfl⟩ xs convertPublished
        obtain ⟨f, hf, hfid⟩ := mergeAndWrite_keys hbase xs hok kv2 hkv2
        exact ⟨f, hf, by rw [hfid, hkey2, hkey]⟩
    | .error e =>
      cases e <;> simp only [hl] at hok
      case attrError => simp at hok
      all_goals
      · constructor
        · intro x hx idv hid ht
          obtain ⟨kv, hkv, hkey⟩ :=
            upsertAll_key_of_mem hx hid ht ([] : IdMap) convertPublished
          obtain ⟨f, hf, hfid⟩ := mergeAndWrite_keys (by simp) xs hok kv hkv
          exact ⟨f, hf, by rw [hfid, hkey]⟩
        · intro l' hl' g hg idv hid ht
          simp at hl'

/-- C3 (counterexample): a store file that contains a perfectly well-formed
item `old1` next to an item with a corrupt timestamp.  `load_all` raises, so
`save_many` silently starts from an empty store: the save succeeds, the file
afterwards contains only the new item, and `old1` is gone without any
exception. -/
def c3OldItem : Fields := [("item_id", .str "old1"), ("published", .str "2023-01-01T00:00:00Z")]

def c3BadItem : Fields := [("item_id", .str "bad"), ("published", .str "not a date")]

def c3File : Option RawFile := some (.withItems [.item c3OldItem, .item c3BadItem])

def c3New : Fields := [("item_id", .str "new1"), ("published", .str "2024-05-05T05:05:05Z")]

theorem claim_C3_counterexample :
    load_all c3File = .error .badTimestamp ∧
    getVal c3OldItem "item_id" = some (.str "old1") ∧
    save_many c3File [c3New] = .ok (.withItems [.item c3New]) ∧
    stateAfter c3File [c3New] = some (.withItems [.item c3New]) := by
  refine ⟨by rfl, by decide, by rfl, by rfl⟩

/-- Witness data for C3: a healthy one-item store plus one incoming item. -/
def c3wOld : Fields := [("item_id", .str "keep"), ("published", .str "2023-06-01T00:00:00Z")]

def c3wFile : Option RawFile := some (.withItems [.item c3wOld])

def c3wNew : Fields := [("item_id", .str "n"), ("published", .str "2024-01-01T00:00:00Z")]

def c3wOut : List RawElem :=
  [.item [("item_id", .str "n"), ("published", .str "2024-01-01T00:00:00Z")],
   .item [("item_id", .str "keep"), ("published", .str "2023-06-01T00:00:00Z")]]

def c3wLoaded : Fields :=
  [("item_id", .str "keep"), ("published", .dt ⟨2023, 6, 1, 0, 0, 0, 0⟩)]

theorem claim_C3_witness :
    save_many c3wFile [c3wNew] = .ok (.withItems c3wOut) ∧
    (∃ f, RawElem.item f ∈ c3wOut ∧ getVal f "item_id" = some (.str "n")) ∧
    (∃ f, RawElem.item f ∈ c3wOut ∧ getVal f "item_id" = some (.str "keep")) := by
  have hok : save_many c3wFile [c3wNew] = .ok (.withItems c3wOut) := by rfl
  have h := (claim_C3_save_merge c3wFile [c3wNew]).2 c3wOut hok
  refine ⟨hok, ?_, ?_⟩
  · exact h.1 c3wNew (by simp) (.str "n") (by decide) (by decide)
  · exact h.2 [c3wLoaded] (by rfl) c3wLoaded (by simp) (.str "keep") (by decide) (by decide)

/-! ## Sortedness of the grouped sort -/

theorem lexLt_irrefl (as : List Nat) : lexLt as as = false := by
  induction as with
  | nil => rfl
  | cons a as ih => simp [lexLt, ih]

theorem DT.ltb_irrefl (a : DT) : DT.ltb a a = false := lexLt_irrefl _

/-- The canonical order on keyed entries: published descending, `item_id`
ascending. -/
def entLe (a b : SortEnt) : Prop :=
  DT.ltb b.1 a.1 = true ∨ (a.1 = b.1 ∧ pyStrLe a.2.1 b.2.1)

theorem addToGroups_time {gs : List (DT × List SortEnt)}
    (h : ∀ p ∈ gs, ∀ e ∈ p.2, e.1 = p.1) (x : SortEnt) :
    ∀ p ∈ addToGroups gs x, ∀ e ∈ p.2, e.1 = p.1 := by
  induction gs with
  | nil =>
    intro p hp e he
    simp [addToGroups] at hp
    subst hp
    simp at he
    rw [he]
  | cons q gs ih =>
    obtain ⟨t, g⟩ := q
    intro p hp e he
    by_cases hk : t = x.1
    · rw [addToGroups, if_pos hk] at hp
      rcases List.mem_cons.mp hp with heq | hmem
      · subst heq
        simp only at he
        rcases List.mem_append.mp he with h1 | h2
        · exact h (t, g) (by simp) e h1
        · simp at h2
          rw [h2, hk]
      · exact h p (by simp [hmem]) e he
    · rw [addToGroups, if_neg hk] at hp
      rcases List.mem_cons.mp hp with heq | hmem
      · subst heq
        exact h (t, g) (by simp) e he
      · exact ih (fun q hq => h q (by simp [hq])) p hmem e he

theorem buildGroups_time (l : List SortEnt) :
    ∀ p ∈ buildGroups l, ∀ e ∈ p.2, e.1 = p.1 := by
  suffices h : ∀ gs, (∀ p ∈ gs, ∀ e ∈ p.2, e.1 = p.1) →
      ∀ p ∈ l.foldl addToGroups gs, ∀ e ∈ p.2, e.1 = p.1 by
    exact h [] (by simp)
  induction l with
  | nil => intro gs hgs; exact hgs
  | cons x l ih =>
    intro gs hgs
    exact ih (addToGroups gs x) (addToGroups_time hgs x)

theorem addToGroups_keys_sub {gs : List (DT × List SortEnt)} (x : SortEnt) {k : DT}
    (h : k ∈ (addToGroups gs x).map (fun p => p.1)) :
    k ∈ gs.map (fun p => p.1) ∨ k = x.1 := by
  induction gs with
  | nil =>
    simp [addToGroups] at h
    exact Or.inr h
  | cons q gs ih =>
    obtain ⟨t, g⟩ := q
    by_cases hk : t = x.1
    · rw [addToGroups, if_pos hk] at h
      simp only [List.map_cons, List.mem_cons] at h
      rcases h with h | h
      · exact Or.inl (by simp [h])
      · exact Or.inl (by simp [h])
    · rw [addToGroups, if_neg hk] at h
      simp only [List.map_cons, List.mem_cons] at h
      rcases h with h | h
      · exact Or.inl (by simp [h])
      · rcases ih h with h2 | h2
        · exact Or.inl (by simp [h2])
        · exact Or.inr h2

theorem addToGroups_keys_nodup {gs : List (DT × List SortEnt)}
    (h : (gs.map (fun p => p.1)).Nodup) (x : SortEnt) :
    ((addToGroups gs x).map (fun p => p.1)).Nodup := by
  induction gs with
  | nil => simp [addToGroups]
  | cons q gs ih =>
    obtain ⟨t, g⟩ := q
    simp only [List.map_cons, List.nodup_cons] at h
    by_cases hk : t = x.1
    · rw [addToGroups, if_pos hk]
      simp only [List.map_cons, List.nodup_cons]
      exact h
    · rw [addToGroups, if_neg hk]
      simp only [List.map_cons, List.nodup_cons]
      refine ⟨?_, ih h.2⟩
      intro hcon
      rcases addToGroups_keys_sub x hcon with h2 | h2
      · exact h.1 h2
      · exact hk h2

theorem buildGroups_keys_nodup (l : List SortEnt) :
    ((buildGroups l).map (fun p => p.1)).Nodup := by
  suffices h : ∀ gs, (gs.map (fun p => p.1)).Nodup →
      ((l.foldl addToGroups gs).map (fun p => p.1)).Nodup by
    exact h [] (by simp)
  induction l with
  | nil => intro gs hgs; exact hgs
  | cons x l ih =>
    intro gs hgs
    exact ih (addToGroups gs x) (addToGroups_keys_nodup hgs x)

/-- The grouped sort produces a list ordered by published descending with ties
by id ascending. -/
theorem pyGroupedSort_pairwise (l : List SortEnt) : (pyGroupedSort l).Pairwise entLe := by
  unfold pyGroupedSort
  rw [List.pairwise_flatten]
  constructor
  · intro g hg
    rw [List.mem_map] at hg
    obtain ⟨p, hp, hgeq⟩ := hg
    subst hgeq
    have hmem : p ∈ buildGroups l :=
      ((List.perm_insertionSort groupGe (buildGroups l)).mem_iff).mp hp
    have htime := buildGroups_time l p hmem
    have hsorted := List.sorted_insertionSort entIdLe p.2
    have himp : ∀ a ∈ List.insertionSort entIdLe p.2, ∀ b ∈ List.insertionSort entIdLe p.2,
        entIdLe a b → entLe a b := by
      intro a ha b hb hab
      have ha' := (List.mem_insertionSort entIdLe).mp ha
      have hb' := (List.mem_insertionSort entIdLe).mp hb
      exact Or.inr ⟨(htime a ha').trans (htime b hb').symm, hab⟩
    exact List.Pairwise.imp_of_mem (fun {a b} ha hb hab => himp a ha b hb hab) hsorted
  · have hkeys : ((List.insertionSort groupGe (buildGroups l)).map (fun p => p.1)).Nodup :=
      (buildGroups_keys_nodup l).perm
        ((List.perm_insertionSort groupGe (buildGroups l)).map (fun p => p.1)).symm
    have hsorted := List.sorted_insertionSort groupGe (buildGroups l)
    have hne : (List.insertionSort groupGe (buildGroups l)).Pairwise
        (fun p q => p.1 ≠ q.1) := (List.pairwise_map).mp hkeys
    have hstrict : (List.insertionSort groupGe (buildGroups l)).Pairwise
        (fun p q => DT.ltb q.1 p.1 = true) := by
      have hand := hsorted.and hne
      exact hand.imp (fun h => by
        rcases h.1 with h1 | h1
        · exact h1
        · exact absurd h1 h.2)
    rw [List.pairwise_map]
    refine hstrict.imp_of_mem ?_
    intro p q hp hq hpq a ha b hb
    have hp' : p ∈ buildGroups l :=
      ((List.perm_insertionSort groupGe (buildGroups l)).mem_iff).mp hp
    have hq' : q ∈ buildGroups l :=
      ((List.perm_insertionSort groupGe (buildGroups l)).mem_iff).mp hq
    have ha' := buildGroups_time l p hp' a ((List.mem_insertionSort entIdLe).mp ha)
    have hb' := buildGroups_time l q hq' b ((List.mem_insertionSort entIdLe).mp hb)
    exact Or.inl (by rw [ha', hb']; exact hpq)

/-- Two permutations of the same entries, both canonically ordered, are equal
as soon as the order admits no distinct tied elements among them. -/
theorem eq_of_perm_of_pairwise {α : Type} {r : α → α → Prop} :
    ∀ {l1 l2 : List α}, l1.Perm l2 → l1.Pairwise r → l2.Pairwise r →
      (∀ a ∈ l1, ∀ b ∈ l1, r a b → r b a → a = b) → l1 = l2
  | [], l2, hp, _, _, _ => by
    rw [hp.nil_eq]
  | a :: t1, l2, hp, hs1, hs2, ha => by
    match l2 with
    | [] => exact absurd hp.symm.nil_eq (by simp)
    | b :: t2 =>
      have hab : a = b := by
        by_contra hne
        have haIn : a ∈ b :: t2 := hp.mem_iff.mp (by simp)
        have hbIn : b ∈ a :: t1 := hp.mem_iff.mpr (by simp)
        have haT2 : a ∈ t2 := by
          rcases List.mem_cons.mp haIn with h | h
          · exact absurd h hne
          · exact h
        have hbT1 : b ∈ t1 := by
          rcases List.mem_cons.mp hbIn with h | h
          · exact absurd h.symm hne
          · exact h
        have hrab : r a b := (List.pairwise_cons.mp hs1).1 b hbT1
        have hrba : r b a := (List.pairwise_cons.mp hs2).1 a haT2
        exact hne (ha a (by simp) b (by simp [hbT1]) hrab hrba)
      subst hab
      have hp' : t1.Perm t2 := hp.cons_inv
      have hrec := eq_of_perm_of_pairwise hp' (List.pairwise_cons.mp hs1).2
        (List.pairwise_cons.mp hs2).2
        (fun x hx y hy => ha x (by simp [hx]) y (by simp [hy]))
      rw [hrec]

/-- The grouped sort depends only on the multiset of entries whenever distinct
entries never share an id. -/
theorem pyGroupedSort_eq_of_perm {l1 l2 : List SortEnt} (hp : l1.Perm l2)
    (hinj : ∀ a ∈ l1, ∀ b ∈ l1, a.2.1 = b.2.1 → a = b) :
    pyGroupedSort l1 = pyGroupedSort l2 := by
  have hperm : (pyGroupedSort l1).Perm (pyGroupedSort l2) :=
    (pyGroupedSort_perm l1).trans (hp.trans (pyGroupedSort_perm l2).symm)
  refine eq_of_perm_of_pairwise hperm (pyGroupedSort_pairwise l1) (pyGroupedSort_pairwise l2) ?_
  intro a ha b hb hab hba
  have ha' : a ∈ l1 := ((pyGroupedSort_perm l1).mem_iff).mp ha
  have hb' : b ∈ l1 := ((pyGroupedSort_perm l1).mem_iff).mp hb
  rcases hab with h1 | ⟨h1, h1'⟩
  · rcases hba with h2 | ⟨h2, h2'⟩
    · exact absurd h2 (by rw [DT.ltb_asymm h1]; simp)
    · rw [h2] at h1
      exact absurd h1 (by rw [DT.ltb_irrefl]; simp)
  · rcases hba with h2 | ⟨h2, h2'⟩
    · rw [h1] at h2
      exact absurd h2 (by rw [DT.ltb_irrefl]; simp)
    · exact hinj a ha' b hb' (pyStrLe_antisymm h1' h2')

/-! ## Validity of stored datetimes -/

/-- Any `datetime` object sitting under `published` is a real (valid) Python
datetime.  This holds for everything `load_all` produces and is preserved by
the merge. -/
def GoodPub (f : Fields) : Prop :=
  ∀ t, getVal f "published" = some (.dt t) → t.Valid

theorem mapSet_vals_sub {m : IdMap} {k : PyVal} {v : Fields} {kv : PyVal × Fields}
    (h : kv ∈ mapSet m k v) : kv.2 = v ∨ kv ∈ m := by
  induction m with
  | nil =>
    simp [mapSet] at h
    rw [h]
    exact Or.inl rfl
  | cons p rest ih =>
    obtain ⟨k', v'⟩ := p
    by_cases hk : k' = k
    · rw [mapSet, if_pos hk] at h
      rcases List.mem_cons.mp h with heq | hmem
      · rw [heq]
        exact Or.inl rfl
      · exact Or.inr (by simp [hmem])
    · rw [mapSet, if_neg hk] at h
      rcases List.mem_cons.mp h with heq | hmem
      · exact Or.inr (by simp [heq])
      · rcases ih hmem with h2 | h2
        · exact Or.inl h2
        · exact Or.inr (by simp [h2])

theorem upsertAll_vals_sub {m : IdMap} {l : List Fields} {tf : Fields → Fields}
    {kv : PyVal × Fields} (h : kv ∈ upsertAll m l tf) :
    kv ∈ m ∨ ∃ f ∈ l, kv.2 = tf f := by
  induction l generalizing m with
  | nil => exact Or.inl h
  | cons f l ih =>
    rcases ih h with h2 | h2
    · unfold upsertStep at h2
      match hid : getVal f "item_id" with
      | none =>
        rw [hid] at h2
        exact Or.inl h2
      | some idv =>
        simp only [hid] at h2
        by_cases ht : idv.truthy
        · rw [if_pos ht] at h2
          rcases mapSet_vals_sub h2 with h3 | h3
          · exact Or.inr ⟨f, by simp, h3⟩
          · exact Or.inl h3
        · rw [if_neg ht] at h2
          exact Or.inl h2
    · obtain ⟨g, hg, hkv⟩ := h2
      exact Or.inr ⟨g, by simp [hg], hkv⟩

theorem prepPublished_not_dt {v : PyVal} (t : DT) : prepPublished v ≠ .dt t := by
  unfold prepPublished
  match v with
  | .dt t' => simp
  | .str s =>
    match h : strToDt s with
    | some t' => simp [h]
    | none => simp [h]
  | .num n => simp
  | .bool b => simp
  | .null => simp

theorem convertPublished_goodPub (x : Fields) : GoodPub (convertPublished x) := by
  intro t hget
  unfold convertPublished at hget
  match hv : getVal x "published" with
  | none =>
    simp only [hv] at hget
    simp at hget
  | some v =>
    simp only [hv] at hget
    by_cases ht : v.truthy
    · rw [if_pos ht] at hget
      rw [getVal_setVal_self] at hget
      injection hget with hget
      exact absurd hget (prepPublished_not_dt t)
    · rw [if_neg ht] at hget
      rw [hv] at hget
      injection hget with hget
      subst hget
      simp [PyVal.truthy] at ht

theorem parsePublished_goodPub {f f' : Fields}
    (h : parsePublished f = .ok f') : GoodPub f' := by
  unfold parsePublished at h
  split at h
  · rename_i v hv
    split at h
    · rename_i ht
      split at h
      · rename_i s
        split at h
        · rename_i t hp
          injection h with h
          subst h
          intro t' hget
          rw [getVal_setVal_self] at hget
          injection hget with hget
          injection hget with hget
          rw [← hget]
          exact strToDt_valid hp
        · simp at h
      · simp at h
    · rename_i ht
      injection h with h
      subst h
      intro t' hget
      rw [hv] at hget
      injection hget with hget
      subst hget
      simp [PyVal.truthy] at ht
  · rename_i hv
    injection h with h
    subst h
    intro t' hget
    rw [hv] at hget
    simp at hget

theorem loadItems_goodPub {elems : List RawElem} {l : List Fields}
    (h : loadItems elems = .ok l) : ∀ g ∈ l, GoodPub g := by
  induction elems generalizing l with
  | nil =>
    simp only [loadItems] at h
    injection h with h
    subst h
    intro g hg
    simp at hg
  | cons hd rest ih =>
    match hd with
    | .notDict => simp [loadItems] at h
    | .item f =>
      simp only [loadItems] at h
      split at h
      · simp at h
      · rename_i f' hp
        split at h
        · simp at h
        · rename_i rest' hr
          injection h with h
          subst h
          intro g hg
          rcases List.mem_cons.mp hg with heq | hmem
          · subst heq
            exact parsePublished_goodPub hp
          · exact ih hr g hmem

theorem load_all_goodPub {fs : Option RawFile} {l : List Fields}
    (h : load_all fs = .ok l) : ∀ g ∈ l, GoodPub g := by
  match fs with
  | none =>
    simp only [load_all] at h
    injection h with h
    subst h
    intro g hg
    simp at hg
  | some .invalidJson => simp [load_all] at h
  | some .notStoreDict => simp [load_all] at h
  | some .itemsNotList => simp [load_all] at h
  | some (.withItems elems) => exact loadItems_goodPub h

theorem merged_goodPub {base : IdMap} (hbase : ∀ kv ∈ base, GoodPub kv.2)
    (xs : List Fields) : ∀ kv ∈ mergeIncoming base xs, GoodPub kv.2 := by
  intro kv hkv
  rcases upsertAll_vals_sub hkv with h | ⟨f, _, hf⟩
  · exact hbase kv h
  · rw [hf]
    exact convertPublished_goodPub f

theorem entryIdStr_ok_getVal {f : Fields} {i : String} (h : entryIdStr f = .ok i) :
    getVal f "item_id" = some (.str i) := by
  unfold entryIdStr at h
  split at h
  · rename_i s hv
    injection h with h
    subst h
    exact hv
  · simp at h

/-! ## Claim C5: canonical order of the written file -/

/-- The published instant a written or loaded entry denotes. -/
def entryDT (f : Fields) : Option DT :=
  match getVal f "published" with
  | some (.str s) => strToDt s
  | some (.dt t) => some t
  | _ => none

/-- The claim's canonical order on item dicts: `published` descending, ties by
`item_id` ascending. -/
def canonRel (f g : Fields) : Prop :=
  ∃ tf tg, entryDT f = some tf ∧ entryDT g = some tg ∧
    (DT.ltb tg tf = true ∨ (tf = tg ∧ ∃ sf sg,
      getVal f "item_id" = some (.str sf) ∧ getVal g "item_id" = some (.str sg) ∧
      pyStrLe sf sg))

theorem pairwise_canonRel_of_map {h : SortEnt → Fields} {l : List SortEnt}
    (hl : l.Pairwise entLe)
    (hfact : ∀ e ∈ l, entryDT (h e) = some e.1 ∧
      getVal (h e) "item_id" = some (.str e.2.1)) :
    (l.map h).Pairwise canonRel := by
  rw [List.pairwise_map]
  refine List.Pairwise.imp_of_mem ?_ hl
  intro a b ha hb hab
  obtain ⟨hta, hia⟩ := hfact a ha
  obtain ⟨htb, hib⟩ := hfact b hb
  refine ⟨a.1, b.1, hta, htb, ?_⟩
  rcases hab with hab | ⟨hab, hab'⟩
  · exact Or.inl hab
  · exact Or.inr ⟨hab, a.2.1, b.2.1, hia, hib, hab'⟩

theorem loadItems_map_ok {items : List Fields}
    (h : ∀ f ∈ items, parsePublished f = .ok (loadBackEntry f)) :
    loadItems (items.map RawElem.item) = .ok (items.map loadBackEntry) := by
  induction items with
  | nil => rfl
  | cons f rest ih =>
    have hf := h f (by simp)
    have hrest := ih (fun g hg => h g (by simp [hg]))
    simp only [List.map_cons, loadItems, hf, hrest]

/-- The per-entry facts available for every element of the grouped sort of a
successful `keyEntries` run over good-published map values. -/
theorem sorted_entry_facts {vals : List Fields} {K : List SortEnt}
    (hK : keyEntries vals = .ok K) (hgood : ∀ g ∈ vals, GoodPub g) :
    ∀ e ∈ pyGroupedSort K,
      entryDT (convertPublished e.2.2) = some e.1 ∧
      getVal (convertPublished e.2.2) "item_id" = some (.str e.2.1) ∧
      parsePublished (convertPublished e.2.2) = .ok (loadBackEntry (convertPublished e.2.2)) ∧
      entryDT (loadBackEntry (convertPublished e.2.2)) = some e.1 ∧
      getVal (loadBackEntry (convertPublished e.2.2)) "item_id" = some (.str e.2.1) := by
  intro e he
  have heK : e ∈ K := ((pyGroupedSort_perm K).mem_iff).mp he
  obtain ⟨hmem, hT, hI⟩ := keyEntries_ok_mem hK e heK
  have hgoodf : ∀ t', getVal e.2.2 "published" = some (.dt t') → t'.Valid :=
    hgood e.2.2 hmem
  obtain ⟨hget, hparse, hload⟩ := converted_entry_facts hT hgoodf
  have hid : getVal (convertPublished e.2.2) "item_id" = some (.str e.2.1) := by
    rw [convertPublished_id_key _ "item_id" (by decide)]
    exact entryIdStr_ok_getVal hI
  have hvalid : e.1.Valid := (convert_of_entryTime hT hgoodf).1
  have hdt : entryDT (convertPublished e.2.2) = some e.1 := by
    unfold entryDT
    rw [hget]
    exact strToDt_dtToStr hvalid
  have hdt2 : entryDT (loadBackEntry (convertPublished e.2.2)) = some e.1 := by
    rw [hload]
    unfold entryDT
    rw [getVal_setVal_self]
  have hid2 : getVal (loadBackEntry (convertPublished e.2.2)) "item_id"
      = some (.str e.2.1) := by
    rw [loadBackEntry_id_key _ "item_id" (by decide)]
    exact hid
  exact ⟨hdt, hid, by rw [hload]; exact hparse, hdt2, hid2⟩

/-- C5: on every successful `save_many`, the written `items` array is sorted by
`published` descending with ties broken by `item_id` ascending, and `load_all`
on the written file succeeds and returns the items in exactly the written
order (with `published` parsed back), again canonically sorted — regardless of
the insertion order of the input.  (The serializability hypotheses confine the
model to inputs on which Python's `json.dump` would succeed as well.) -/
theorem claim_C5_canonical_order (fs : Option RawFile) (xs : List Fields)
    (hjson : JsonFile fs) (hser : ∀ x ∈ xs, SerializableItem x) :
    ∀ out, save_many fs xs = .ok (.withItems out) →
      ∃ items : List Fields, out = items.map RawElem.item ∧
        items.Pairwise canonRel ∧
        load_all (some (.withItems out)) = .ok (items.map loadBackEntry) ∧
        (items.map loadBackEntry).Pairwise canonRel := by
  intro out hok
  have main : ∀ base : IdMap, (∀ kv ∈ base, GoodPub kv.2) →
      mergeAndWrite base xs = .ok (.withItems out) →
      ∃ items : List Fields, out = items.map RawElem.item ∧
        items.Pairwise canonRel ∧
        load_all (some (.withItems out)) = .ok (items.map loadBackEntry) ∧
        (items.map loadBackEntry).Pairwise canonRel := by
    intro base hbase hmw
    unfold mergeAndWrite at hmw
    split at hmw
    · simp at hmw
    · rename_i K hK
      injection hmw with hmw
      injection hmw with hmw
      have hgood : ∀ g ∈ (mergeIncoming base xs).map (fun kv => kv.2), GoodPub g := by
        intro g hg
        obtain ⟨kv, hkv, hkveq⟩ := List.mem_map.mp hg
        rw [← hkveq]
        exact merged_goodPub hbase xs kv hkv
      have hfacts := sorted_entry_facts hK hgood
      refine ⟨(pyGroupedSort K).map (fun e => convertPublished e.2.2), ?_, ?_, ?_, ?_⟩
      · rw [← hmw, List.map_map]
        rfl
      · exact pairwise_canonRel_of_map (pyGroupedSort_pairwise K)
          (fun e he => ⟨(hfacts e he).1, (hfacts e he).2.1⟩)
      · show loadItems _ = _
        rw [← hmw]
        have : (pyGroupedSort K).map (fun e => RawElem.item (convertPublished e.2.2))
            = ((pyGroupedSort K).map (fun e => convertPublished e.2.2)).map
              RawElem.item := by
          rw [List.map_map]
          rfl
        rw [this]
        rw [loadItems_map_ok, List.map_map]
        intro f hf
        obtain ⟨e, he, heq⟩ := List.mem_map.mp hf
        rw [← heq]
        exact (hfacts e he).2.2.1
      · rw [List.map_map]
        exact pairwise_canonRel_of_map (pyGroupedSort_pairwise K)
          (fun e he => ⟨(hfacts e he).2.2.2.1, (hfacts e he).2.2.2.2⟩)
  unfold save_many at hok
  match hl : load_all fs with
  | .ok l =>
    simp only [hl] at hok
    refine main (buildExisting l) ?_ hok
    intro kv hkv
    rcases upsertAll_vals_sub hkv with h | ⟨f, hf, hkveq⟩
    · simp at h
    · rw [hkveq]
      exact load_all_goodPub hl f hf
  | .error e =>
    cases e <;> simp only [hl] at hok
    case attrError => simp at hok
    all_goals exact main [] (by simp) hok

/-- Witness data for C5: two items saved into a fresh store out of order. -/
def c5xA : Fields := [("item_id", .str "a"), ("published", .str "2024-03-01T10:00:00Z")]

def c5xB : Fields := [("item_id", .str "b"), ("published", .str "2024-03-02T10:00:00Z")]

def c5Out : List RawElem := [.item c5xB, .item c5xA]

theorem claim_C5_witness :
    JsonFile none ∧ (∀ x ∈ [c5xA, c5xB], SerializableItem x) ∧
    save_many none [c5xA, c5xB] = .ok (.withItems c5Out) ∧
    (∃ items : List Fields, c5Out = items.map RawElem.item ∧
      items.Pairwise canonRel ∧
      load_all (some (.withItems c5Out)) = .ok (items.map loadBackEntry) ∧
      (items.map loadBackEntry).Pairwise canonRel) := by
  have hser : ∀ x ∈ [c5xA, c5xB], SerializableItem x := by
    intro x hx
    fin_cases hx <;>
    · intro p hp t ht
      simp [c5xA, c5xB] at hp
      rcases hp with h | h <;> (rw [h] at ht; simp at ht)
  have hok : save_many none [c5xA, c5xB] = .ok (.withItems c5Out) := by rfl
  exact ⟨trivial, hser, hok,
    claim_C5_canonical_order none [c5xA, c5xB] trivial hser c5Out hok⟩

/-! ## Lookup characterization of the merge -/

theorem mapGet_mapSet_self (m : IdMap) (k : PyVal) (v : Fields) :
    mapGet (mapSet m k v) k = some v := by
  induction m with
  | nil => simp [mapSet, mapGet, List.find?]
  | cons p rest ih =>
    obtain ⟨k', v'⟩ := p
    by_cases h : k' = k
    · subst h
      simp [mapSet, mapGet, List.find?]
    · simpa [mapSet, mapGet, List.find?, h] using ih

theorem mapGet_mapSet_ne (m : IdMap) {k k' : PyVal} (v : Fields) (h : k' ≠ k) :
    mapGet (mapSet m k v) k' = mapGet m k' := by
  induction m with
  | nil => simp [mapSet, mapGet, List.find?, Ne.symm h]
  | cons p rest ih =>
    obtain ⟨k'', v''⟩ := p
    by_cases h2 : k'' = k
    · subst h2
      simp [mapSet, mapGet, List.find?, Ne.symm h, h]
    · by_cases h3 : k'' = k'
      · subst h3
        simp [mapSet, mapGet, List.find?, h2]
      · simpa [mapSet, mapGet, List.find?, h2, h3] using ih

theorem mapSet_keys_cases (m : IdMap) (k : PyVal) (v : Fields) :
    (mapSet m k v).map (fun p => p.1) = m.map (fun p => p.1) ∨
      ((mapSet m k v).map (fun p => p.1) = m.map (fun p => p.1) ++ [k] ∧
        k ∉ m.map (fun p => p.1)) := by
  induction m with
  | nil => exact Or.inr ⟨by simp [mapSet], by simp⟩
  | cons p rest ih =>
    obtain ⟨k', v'⟩ := p
    by_cases h : k' = k
    · subst h
      exact Or.inl (by simp [mapSet])
    · rcases ih with h2 | ⟨h2, h3⟩
      · exact Or.inl (by simp [mapSet, h, h2])
      · exact Or.inr ⟨by simp [mapSet, h, h2], by simp [h3, Ne.symm h]⟩

theorem mapSet_keys_nodup {m : IdMap} (h : (m.map (fun p => p.1)).Nodup)
    (k : PyVal) (v : Fields) : ((mapSet m k v).map (fun p => p.1)).Nodup := by
  rcases mapSet_keys_cases m k v with h2 | ⟨h2, h3⟩
  · rw [h2]; exact h
  · rw [h2]
    simp only [List.nodup_append, List.nodup_cons]
    exact ⟨h, by simp, by simpa using h3⟩

theorem upsertStep_keys_nodup {m : IdMap} (h : (m.map (fun p => p.1)).Nodup)
    (tf : Fields → Fields) (f : Fields) :
    ((upsertStep tf m f).map (fun p => p.1)).Nodup := by
  unfold upsertStep
  match hid : getVal f "item_id" with
  | none => exact h
  | some idv =>
    by_cases ht : idv.truthy
    · simp only [ht, if_true]
      exact mapSet_keys_nodup h idv (tf f)
    · simp only [ht, if_false]
      exact h

theorem upsertAll_keys_nodup {m : IdMap} (h : (m.map (fun p => p.1)).Nodup)
    (l : List Fields) (tf : Fields → Fields) :
    ((upsertAll m l tf).map (fun p => p.1)).Nodup := by
  induction l generalizing m with
  | nil => exact h
  | cons f l ih => exact ih (upsertStep_keys_nodup h tf f)

theorem nodupkeys_pair_unique {m : IdMap} (h : (m.map (fun p => p.1)).Nodup)
    {kv1 kv2 : PyVal × Fields} (h1 : kv1 ∈ m) (h2 : kv2 ∈ m) (hk : kv1.1 = kv2.1) :
    kv1 = kv2 := by
  induction m with
  | nil => simp at h1
  | cons p rest ih =>
    simp only [List.map_cons, List.nodup_cons] at h
    rcases List.mem_cons.mp h1 with e1 | m1
    · rcases List.mem_cons.mp h2 with e2 | m2
      · rw [e1, e2]
      · exact absurd (List.mem_map.mpr ⟨kv2, m2, show kv2.1 = p.1 by rw [← hk, e1]⟩) h.1
    · rcases List.mem_cons.mp h2 with e2 | m2
      · exact absurd (List.mem_map.mpr ⟨kv1, m1, show kv1.1 = p.1 by rw [hk, e2]⟩) h.1
      · exact ih h.2 m1 m2

theorem mem_of_mapGet {m : IdMap} {k : PyVal} {v : Fields}
    (h : mapGet m k = some v) : (k, v) ∈ m := by
  induction m with
  | nil => simp [mapGet, List.find?] at h
  | cons p rest ih =>
    obtain ⟨k', v'⟩ := p
    by_cases hk : k' = k
    · subst hk
      simp [mapGet, List.find?] at h
      simp [h]
    · simp only [mapGet] at h
      rw [List.find?_cons_of_neg _ (by simp [hk])] at h
      exact List.mem_cons.mpr (Or.inr (ih h))

theorem mapGet_of_mem {m : IdMap} (hnodup : (m.map (fun p => p.1)).Nodup)
    {kv : PyVal × Fields} (h : kv ∈ m) : mapGet m kv.1 = some kv.2 := by
  induction m with
  | nil => simp at h
  | cons p rest ih =>
    obtain ⟨k', v'⟩ := p
    simp only [List.map_cons, List.nodup_cons] at hnodup
    rcases List.mem_cons.mp h with e | hm
    · rw [e]
      simp [mapGet, List.find?]
    · have hne : k' ≠ kv.1 := by
        intro hcon
        exact hnodup.1 (List.mem_map.mpr ⟨kv, hm, hcon.symm⟩)
      simp only [mapGet]
      rw [List.find?_cons_of_neg _ (by simp [hne])]
      exact ih hnodup.2 hm

theorem mapGet_none_iff {m : IdMap} {k : PyVal} :
    mapGet m k = none ↔ ∀ kv ∈ m, kv.1 ≠ k := by
  induction m with
  | nil => simp [mapGet, List.find?]
  | cons p rest ih =>
    obtain ⟨k', v'⟩ := p
    by_cases hk : k' = k
    · subst hk
      simp [mapGet, List.find?]
    · simp only [mapGet]
      rw [List.find?_cons_of_neg _ (by simp [hk])]
      constructor
      · intro h kv hkv
        rcases List.mem_cons.mp hkv with e | hm
        · rw [e]; exact hk
        · exact ih.mp h kv hm
      · intro h
        exact ih.mpr (fun kv hkv => h kv (by simp [hkv]))

/-- The last element of `l` carrying the truthy id `k` (the one that wins the
Python dict assignment). -/
def lastWith : List Fields → PyVal → Option Fields
  | [], _ => none
  | f :: l, k =>
    match lastWith l k with
    | some g => some g
    | none =>
      match getVal f "item_id" with
      | some idv => if idv.truthy = true ∧ idv = k then some f else none
      | none => none

theorem upsertAll_lookup (l : List Fields) (tf : Fields → Fields) (k : PyVal) :
    ∀ m, mapGet (upsertAll m l tf) k =
      match lastWith l k with
      | some f => some (tf f)
      | none => mapGet m k := by
  induction l with
  | nil => intro m; rfl
  | cons f l ih =>
    intro m
    show mapGet (upsertAll (upsertStep tf m f) l tf) k = _
    rw [ih (upsertStep tf m f)]
    match hlw : lastWith l k with
    | some g => simp [lastWith, hlw]
    | none =>
      simp only [lastWith, hlw]
      unfold upsertStep
      match hid : getVal f "item_id" with
      | none => simp
      | some idv =>
        by_cases ht : idv.truthy
        · by_cases heq : idv = k
          · subst heq
            simp [ht, mapGet_mapSet_self]
          · have hne : k ≠ idv := fun hcon => heq hcon.symm
            simp [ht, heq, mapGet_mapSet_ne m (tf f) hne]
        · simp [ht]

theorem lastWith_mem {l : List Fields} {k : PyVal} {f : Fields}
    (h : lastWith l k = some f) :
    f ∈ l ∧ getVal f "item_id" = some k ∧ k.truthy = true := by
  induction l with
  | nil => simp [lastWith] at h
  | cons g l ih =>
    simp only [lastWith] at h
    split at h
    · rename_i g' hlw
      injection h with h
      subst h
      obtain ⟨h1, h2, h3⟩ := ih hlw
      exact ⟨by simp [h1], h2, h3⟩
    · rename_i hlw
      split at h
      · rename_i idv hid
        split at h
        · rename_i hcond
          injection h with h
          subst h
          exact ⟨by simp, by rw [hid, hcond.2], by rw [← hcond.2]; exact hcond.1⟩
        · simp at h
      · simp at h

theorem lastWith_none_iff {l : List Fields} {k : PyVal} :
    lastWith l k = none ↔
      ∀ f ∈ l, ¬(getVal f "item_id" = some k ∧ k.truthy = true) := by
  induction l with
  | nil => simp [lastWith]
  | cons g l ih =>
    constructor
    · intro h f hf
      simp only [lastWith] at h
      split at h
      · rename_i g' hlw
        exact absurd h (by simp)
      · rename_i hlw
        rcases List.mem_cons.mp hf with e | hm
        · subst e
          intro ⟨hid, ht⟩
          rw [hid] at h
          simp [ht] at h
        · exact ih.mp hlw f hm
    · intro h
      have hlw : lastWith l k = none :=
        ih.mpr (fun f hf => h f (by simp [hf]))
      simp only [lastWith, hlw]
      cases hid : getVal g "item_id" with
      | none => rfl
      | some idv =>
        show (if idv.truthy = true ∧ idv = k then some g else none) = none
        by_cases hcond : idv.truthy = true ∧ idv = k
        · exfalso
          exact h g (by simp) ⟨by rw [hid, hcond.2], by rw [← hcond.2]; exact hcond.1⟩
        · rw [if_neg hcond]

theorem lastWith_unique {l : List Fields}
    (hinj : ∀ f ∈ l, ∀ g ∈ l, getVal f "item_id" = getVal g "item_id" → f = g)
    {k : PyVal} {f : Fields} (hf : f ∈ l) (hid : getVal f "item_id" = some k)
    (ht : k.truthy = true) : lastWith l k = some f := by
  match hlw : lastWith l k with
  | some g =>
    obtain ⟨h1, h2, _⟩ := lastWith_mem hlw
    rw [hinj f hf g h1 (by rw [hid, h2])]
  | none =>
    exact absurd ⟨hid, ht⟩ (lastWith_none_iff.mp hlw f hf)

/-- A loaded entry (its `published` an actual datetime) is reproduced exactly
by writing it (`convertPublished`) and loading it back. -/
theorem loadBack_convert_ident {v : Fields} {t : DT}
    (hdt : getVal v "published" = some (.dt t)) (hvalid : t.Valid) :
    loadBackEntry (convertPublished v) = v := by
  have hT : entryTime v = .ok t := by
    unfold entryTime
    rw [hdt]
  have hgood : ∀ t', getVal v "published" = some (.dt t') → t'.Valid := by
    intro t' hget
    rw [hdt] at hget
    injection hget with hget
    injection hget with hget
    rw [← hget]
    exact hvalid
  have hfacts := converted_entry_facts hT hgood
  rw [hfacts.2.2]
  exact setVal_getVal_self hdt

theorem keyEntries_pointwise {l : List Fields} {K : List SortEnt}
    (h : keyEntries l = .ok K) :
    ∀ f ∈ l, entryTime f = .ok (timeOfD f) ∧ entryIdStr f = .ok (idOfD f) := by
  intro f hf
  have hK := keyEntries_ok_eq h
  have hmem : keyOf f ∈ K := by
    rw [hK]
    exact List.mem_map.mpr ⟨f, hf, rfl⟩
  obtain ⟨_, hT, hI⟩ := keyEntries_ok_mem h (keyOf f) hmem
  exact ⟨hT, hI⟩

/-! ## Claim C9: idempotence of `save_many` -/

theorem mapSet_keys_truthy {m : IdMap} (hm : ∀ kv ∈ m, kv.1.truthy = true)
    {k : PyVal} (hk : k.truthy = true) (v : Fields) :
    ∀ kv ∈ mapSet m k v, kv.1.truthy = true := by
  intro kv hkv
  have hmem : kv.1 ∈ (mapSet m k v).map (fun p => p.1) :=
    List.mem_map.mpr ⟨kv, hkv, rfl⟩
  have hcase : kv.1 ∈ m.map (fun p => p.1) ∨ kv.1 = k := by
    rcases mapSet_keys_cases m k v with h | ⟨h, _⟩
    · rw [h] at hmem; exact Or.inl hmem
    · rw [h] at hmem
      rcases List.mem_append.mp hmem with h2 | h2
      · exact Or.inl h2
      · exact Or.inr (by simpa using h2)
  rcases hcase with h | h
  · obtain ⟨kv2, hkv2, he⟩ := List.mem_map.mp h
    rw [← he]
    exact hm kv2 hkv2
  · rw [h]; exact hk

theorem upsertStep_keys_truthy {m : IdMap} (hm : ∀ kv ∈ m, kv.1.truthy = true)
    (tf : Fields → Fields) (f : Fields) :
    ∀ kv ∈ upsertStep tf m f, kv.1.truthy = true := by
  unfold upsertStep
  match hid : getVal f "item_id" with
  | none => exact hm
  | some idv =>
    by_cases ht : idv.truthy
    · simp only [ht, if_true]
      exact mapSet_keys_truthy hm ht (tf f)
    · simp only [ht, if_false]
      exact hm

theorem upsertAll_keys_truthy {m : IdMap} (hm : ∀ kv ∈ m, kv.1.truthy = true)
    (l : List Fields) (tf : Fields → Fields) :
    ∀ kv ∈ upsertAll m l tf, kv.1.truthy = true := by
  induction l generalizing m with
  | nil => exact hm
  | cons f l ih => exact ih (upsertStep_keys_truthy hm tf f)

theorem orderedInsert_map_iff {α β : Type} {r : α → α → Prop} [DecidableRel r]
    {s : β → β → Prop} [DecidableRel s] (g : α → β)
    (hg : ∀ a b, s (g a) (g b) ↔ r a b) (a : α) (l : List α) :
    List.orderedInsert s (g a) (l.map g) = (List.orderedInsert r a l).map g := by
  induction l with
  | nil => rfl
  | cons b l ih =>
    simp only [List.map_cons, List.orderedInsert]
    by_cases h : r a b
    · rw [if_pos ((hg a b).mpr h), if_pos h, List.map_cons, List.map_cons]
    · rw [if_neg (fun hc => h ((hg a b).mp hc)), if_neg h, List.map_cons, ih]

theorem insertionSort_map_iff {α β : Type} {r : α → α → Prop} [DecidableRel r]
    {s : β → β → Prop} [DecidableRel s] (g : α → β)
    (hg : ∀ a b, s (g a) (g b) ↔ r a b) (l : List α) :
    List.insertionSort s (l.map g) = (List.insertionSort r l).map g := by
  induction l with
  | nil => rfl
  | cons a l ih =>
    simp only [List.map_cons, List.insertionSort]
    rw [ih, orderedInsert_map_iff g hg]

/-- The part of a merged entry the written file keeps: sort keys plus the
converted item dict. -/
def redEnt (e : SortEnt) : SortEnt := (e.1, e.2.1, convertPublished e.2.2)

def gmapRed (p : DT × List SortEnt) : DT × List SortEnt := (p.1, p.2.map redEnt)

theorem addToGroups_map_red (gs : List (DT × List SortEnt)) (e : SortEnt) :
    addToGroups (gs.map gmapRed) (redEnt e) = (addToGroups gs e).map gmapRed := by
  induction gs with
  | nil => rfl
  | cons p gs ih =>
    obtain ⟨t, g⟩ := p
    by_cases h : t = e.1
    · simp [addToGroups, gmapRed, redEnt, h]
    · simp [addToGroups, gmapRed, redEnt, h]
      exact ih

theorem foldl_addToGroups_map_red (l : List SortEnt) :
    ∀ gs, (l.map redEnt).foldl addToGroups (gs.map gmapRed)
      = (l.foldl addToGroups gs).map gmapRed := by
  induction l with
  | nil => intro gs; rfl
  | cons e l ih =>
    intro gs
    rw [List.map_cons, List.foldl_cons, List.foldl_cons, addToGroups_map_red, ih]

theorem buildGroups_map_red (l : List SortEnt) :
    buildGroups (l.map redEnt) = (buildGroups l).map gmapRed := by
  have h := foldl_addToGroups_map_red l []
  simpa [buildGroups] using h

theorem map_flatten_eq {α β : Type} (f : α → β) (L : List (List α)) :
    (L.flatten).map f = (L.map (List.map f)).flatten := by
  induction L with
  | nil => rfl
  | cons g L ih => simp [List.flatten_cons, List.map_append, ih]

theorem pyGroupedSort_map_red (l : List SortEnt) :
    pyGroupedSort (l.map redEnt) = (pyGroupedSort l).map redEnt := by
  unfold pyGroupedSort
  rw [buildGroups_map_red,
    @insertionSort_map_iff _ _ groupGe _ groupGe _ gmapRed (fun a b => Iff.rfl) (buildGroups l),
    List.map_map, map_flatten_eq, List.map_map]
  have hfun : ((fun g => List.insertionSort entIdLe g.2) ∘ gmapRed)
      = (List.map redEnt ∘ fun g => List.insertionSort entIdLe g.2) := by
    funext p
    exact insertionSort_map_iff redEnt (fun a b => Iff.rfl) p.2
  rw [hfun]

theorem entryTime_setVal_dt (f : Fields) (t : DT) :
    entryTime (setVal f "published" (PyVal.dt t)) = .ok t := by
  unfold entryTime
  rw [getVal_setVal_self]

theorem entryIdStr_setVal_pub (f : Fields) (v : PyVal) :
    entryIdStr (setVal f "published" v) = entryIdStr f := by
  unfold entryIdStr
  rw [getVal_setVal_ne f v (by decide)]

theorem convertPublished_setVal_dt (f : Fields) (t : DT) :
    convertPublished (setVal f "published" (PyVal.dt t))
      = setVal f "published" (PyVal.str (dtToStr t)) := by
  unfold convertPublished
  simp only [getVal_setVal_self, PyVal.truthy, if_true, prepPublished, setVal_setVal]

/-- Looking an id up in the reloaded store finds exactly the stored entry for
that id (its `published` parsed back to a datetime). -/
theorem lastWith_written {M1 : IdMap}
    (hnodup : (M1.map (fun p => p.1)).Nodup)
    (hagree : ∀ kv ∈ M1, getVal kv.2 "item_id" = some kv.1)
    (htruthy : ∀ kv ∈ M1, kv.1.truthy = true)
    {K : List SortEnt} (hK : keyEntries (M1.map (fun p => p.2)) = .ok K) (k : PyVal) :
    lastWith ((pyGroupedSort K).map (fun e => setVal e.2.2 "published" (PyVal.dt e.1))) k
      = (mapGet M1 k).map (fun v => setVal v "published" (PyVal.dt (timeOfD v))) := by
  have hKeq := keyEntries_ok_eq hK
  have hinj : ∀ f1 ∈ (pyGroupedSort K).map (fun e => setVal e.2.2 "published" (PyVal.dt e.1)),
      ∀ f2 ∈ (pyGroupedSort K).map (fun e => setVal e.2.2 "published" (PyVal.dt e.1)),
      getVal f1 "item_id" = getVal f2 "item_id" → f1 = f2 := by
    intro f1 hf1 f2 hf2 heq
    obtain ⟨e1, he1, hfe1⟩ := List.mem_map.mp hf1
    obtain ⟨e2, he2, hfe2⟩ := List.mem_map.mp hf2
    obtain ⟨hv1, hT1, hI1⟩ := keyEntries_ok_mem hK e1 (((pyGroupedSort_perm K).mem_iff).mp he1)
    obtain ⟨hv2, hT2, hI2⟩ := keyEntries_ok_mem hK e2 (((pyGroupedSort_perm K).mem_iff).mp he2)
    have hid1 : getVal f1 "item_id" = some (PyVal.str e1.2.1) := by
      rw [← hfe1, getVal_setVal_ne _ _ (by decide)]
      exact entryIdStr_ok_getVal hI1
    have hid2 : getVal f2 "item_id" = some (PyVal.str e2.2.1) := by
      rw [← hfe2, getVal_setVal_ne _ _ (by decide)]
      exact entryIdStr_ok_getVal hI2
    obtain ⟨kv1, hkv1, hk1⟩ := List.mem_map.mp hv1
    obtain ⟨kv2, hkv2, hk2⟩ := List.mem_map.mp hv2
    have ha1 : kv1.1 = PyVal.str e1.2.1 := by
      have hx := hagree kv1 hkv1
      rw [hk1] at hx
      exact Option.some.inj (hx.symm.trans (entryIdStr_ok_getVal hI1))
    have ha2 : kv2.1 = PyVal.str e2.2.1 := by
      have hx := hagree kv2 hkv2
      rw [hk2] at hx
      exact Option.some.inj (hx.symm.trans (entryIdStr_ok_getVal hI2))
    have hee : e1.2.1 = e2.2.1 := by
      rw [hid1, hid2] at heq
      exact PyVal.str.inj (Option.some.inj heq)
    have hkk : kv1.1 = kv2.1 := by rw [ha1, ha2, hee]
    have hkveq : kv1 = kv2 := nodupkeys_pair_unique hnodup hkv1 hkv2 hkk
    have hval : e1.2.2 = e2.2.2 := by rw [← hk1, ← hk2, hkveq]
    have htt : e1.1 = e2.1 := by
      have hx := hT1
      rw [hval] at hx
      exact Except.ok.inj (hx.symm.trans hT2)
    rw [← hfe1, ← hfe2, hval, htt]
  cases hm : mapGet M1 k with
  | none =>
    refine lastWith_none_iff.mpr ?_
    intro g hg
    obtain ⟨e, he, hge⟩ := List.mem_map.mp hg
    obtain ⟨hv, hT, hI⟩ := keyEntries_ok_mem hK e (((pyGroupedSort_perm K).mem_iff).mp he)
    intro ⟨hid, ht⟩
    rw [← hge, getVal_setVal_ne _ _ (by decide)] at hid
    obtain ⟨kv, hkv, hkveq⟩ := List.mem_map.mp hv
    have hx := hagree kv hkv
    rw [hkveq, hid] at hx
    have hkk : kv.1 = k := (Option.some.inj hx).symm
    have hget := mapGet_of_mem hnodup hkv
    rw [hkk, hm] at hget
    exact Option.noConfusion hget
  | some v =>
    have hkv := mem_of_mapGet hm
    have hvmem : v ∈ M1.map (fun p => p.2) := List.mem_map.mpr ⟨(k, v), hkv, rfl⟩
    have hKv : keyOf v ∈ K := by
      rw [hKeq]
      exact List.mem_map.mpr ⟨v, hvmem, rfl⟩
    have hSv : keyOf v ∈ pyGroupedSort K := ((pyGroupedSort_perm K).mem_iff).mpr hKv
    have hgmem : setVal v "published" (PyVal.dt (timeOfD v))
        ∈ (pyGroupedSort K).map (fun e => setVal e.2.2 "published" (PyVal.dt e.1)) :=
      List.mem_map.mpr ⟨keyOf v, hSv, rfl⟩
    have hgid : getVal (setVal v "published" (PyVal.dt (timeOfD v))) "item_id" = some k := by
      rw [getVal_setVal_ne _ _ (by decide)]
      exact hagree (k, v) hkv
    exact lastWith_unique hinj hgmem hgid (htruthy (k, v) hkv)

/-- Two id-keyed maps with the same keys and pointwise `G`-related values have
permuted `G`-images. -/
theorem assocMapPerm {β : Type} {M1 M2 : IdMap}
    (h1 : (M1.map (fun p => p.1)).Nodup) (h2 : (M2.map (fun p => p.1)).Nodup)
    (G : PyVal × Fields → β)
    (hrel : ∀ k : PyVal, (mapGet M1 k = none ∧ mapGet M2 k = none) ∨
      ∃ v1 v2, mapGet M1 k = some v1 ∧ mapGet M2 k = some v2 ∧ G (k, v2) = G (k, v1)) :
    (M2.map G).Perm (M1.map G) := by
  have key_iff : ∀ k, k ∈ M2.map (fun p => p.1) ↔ k ∈ M1.map (fun p => p.1) := by
    intro k
    rcases hrel k with ⟨hn1, hn2⟩ | ⟨v1, v2, hs1, hs2, _⟩
    · constructor
      · intro hk
        obtain ⟨kv, hkv, he⟩ := List.mem_map.mp hk
        have hx := mapGet_of_mem h2 hkv
        rw [he, hn2] at hx
        exact absurd hx (by simp)
      · intro hk
        obtain ⟨kv, hkv, he⟩ := List.mem_map.mp hk
        have hx := mapGet_of_mem h1 hkv
        rw [he, hn1] at hx
        exact absurd hx (by simp)
    · constructor
      · intro _
        exact List.mem_map.mpr ⟨(k, v1), mem_of_mapGet hs1, rfl⟩
      · intro _
        exact List.mem_map.mpr ⟨(k, v2), mem_of_mapGet hs2, rfl⟩
  have hperm : (M2.map (fun p => p.1)).Perm (M1.map (fun p => p.1)) :=
    (List.perm_ext_iff_of_nodup (by exact h2) (by exact h1)).mpr key_iff
  have e1 : M1.map G = (M1.map (fun p => p.1)).map
      (fun k => match mapGet M1 k with | some v => G (k, v) | none => G (k, [])) := by
    rw [List.map_map]
    apply List.map_congr_left
    intro kv hkv
    obtain ⟨a, b⟩ := kv
    have hx := mapGet_of_mem h1 hkv
    simp only [Function.comp_apply, hx]
  have e2 : M2.map G = (M2.map (fun p => p.1)).map
      (fun k => match mapGet M1 k with | some v => G (k, v) | none => G (k, [])) := by
    rw [List.map_map]
    apply List.map_congr_left
    intro kv hkv
    obtain ⟨a, b⟩ := kv
    have hx2 := mapGet_of_mem h2 hkv
    rcases hrel a with ⟨hn1, hn2⟩ | ⟨v1, v2, hs1, hs2, hgv⟩
    · rw [hx2] at hn2
      exact absurd hn2 (by simp)
    · have hvv : b = v2 := by
        rw [hx2] at hs2
        exact Option.some.inj hs2
      simp only [Function.comp_apply, hs1]
      rw [hvv]
      exact hgv
  rw [e1, e2]
  exact hperm.map _

theorem save_many_of_load {fs2 : Option RawFile} {l : List Fields} (xs : List Fields)
    (h : load_all fs2 = .ok l) :
    save_many fs2 xs = mergeAndWrite (buildExisting l) xs := by
  unfold save_many
  rw [h]

theorem mergeAndWrite_of_keyEntries {base : IdMap} {xs : List Fields} {K2 : List SortEnt}
    (h : keyEntries ((mergeIncoming base xs).map (fun kv => kv.2)) = .ok K2) :
    mergeAndWrite base xs = .ok (.withItems ((pyGroupedSort K2).map
      (fun e => RawElem.item (convertPublished e.2.2)))) := by
  unfold mergeAndWrite
  rw [h]

/-- Re-merging the same batch into the reloaded written store reproduces the
written file exactly. -/
theorem mergeAndWrite_stable {base : IdMap} {xs : List Fields}
    (hagree0 : ∀ kv ∈ base, getVal kv.2 "item_id" = some kv.1)
    (hnodup0 : (base.map (fun p => p.1)).Nodup)
    (hgood0 : ∀ kv ∈ base, GoodPub kv.2)
    (htruthy0 : ∀ kv ∈ base, kv.1.truthy = true)
    {K : List SortEnt}
    (hK : keyEntries ((mergeIncoming base xs).map (fun kv => kv.2)) = Except.ok K) :
    mergeAndWrite (buildExisting ((pyGroupedSort K).map
        (fun e => setVal e.2.2 "published" (PyVal.dt e.1)))) xs
      = Except.ok (RawFile.withItems ((pyGroupedSort K).map
        (fun e => RawElem.item (convertPublished e.2.2)))) := by
  have hagree1 : ∀ kv ∈ mergeIncoming base xs, getVal kv.2 "item_id" = some kv.1 :=
    upsertAll_id_agree hagree0 (fun f => convertPublished_id_key f "item_id" (by decide)) xs
  have hnodup1 : ((mergeIncoming base xs).map (fun p => p.1)).Nodup :=
    upsertAll_keys_nodup hnodup0 xs convertPublished
  have hgood1 : ∀ kv ∈ mergeIncoming base xs, GoodPub kv.2 := merged_goodPub hgood0 xs
  have htruthy1 : ∀ kv ∈ mergeIncoming base xs, kv.1.truthy = true :=
    upsertAll_keys_truthy htruthy0 xs convertPublished
  have hKeq : K = ((mergeIncoming base xs).map (fun kv => kv.2)).map keyOf :=
    keyEntries_ok_eq hK
  have hv1keys : ∀ v ∈ (mergeIncoming base xs).map (fun kv => kv.2),
      entryTime v = Except.ok (timeOfD v) ∧ entryIdStr v = Except.ok (idOfD v) := by
    intro v hv
    have hmemK : keyOf v ∈ K := by
      rw [hKeq]
      exact List.mem_map.mpr ⟨v, hv, rfl⟩
    have hx := keyEntries_ok_mem hK (keyOf v) hmemK
    exact ⟨hx.2.1, hx.2.2⟩
  have hgoodv1 : ∀ v ∈ (mergeIncoming base xs).map (fun kv => kv.2), GoodPub v := by
    intro v hv
    obtain ⟨kv, hkv, he⟩ := List.mem_map.mp hv
    rw [← he]
    exact hgood1 kv hkv
  have hLW : ∀ k, lastWith ((pyGroupedSort K).map
        (fun e => setVal e.2.2 "published" (PyVal.dt e.1))) k
      = (mapGet (mergeIncoming base xs) k).map
        (fun v => setVal v "published" (PyVal.dt (timeOfD v))) :=
    fun k => lastWith_written hnodup1 hagree1 htruthy1 hK k
  have hpoint : ∀ k, (mapGet (mergeIncoming base xs) k = none ∧
        mapGet (mergeIncoming (buildExisting ((pyGroupedSort K).map
          (fun e => setVal e.2.2 "published" (PyVal.dt e.1)))) xs) k = none) ∨
      ∃ v1 v2, mapGet (mergeIncoming base xs) k = some v1 ∧
        mapGet (mergeIncoming (buildExisting ((pyGroupedSort K).map
          (fun e => setVal e.2.2 "published" (PyVal.dt e.1)))) xs) k = some v2 ∧
        entryTime v2 = entryTime v1 ∧ entryIdStr v2 = entryIdStr v1 ∧
        convertPublished v2 = convertPublished v1 := by
    intro k
    have hm1 : mapGet (mergeIncoming base xs) k
        = match lastWith xs k with
          | some f => some (convertPublished f)
          | none => mapGet base k :=
      upsertAll_lookup xs convertPublished k base
    have hm2 : mapGet (mergeIncoming (buildExisting ((pyGroupedSort K).map
          (fun e => setVal e.2.2 "published" (PyVal.dt e.1)))) xs) k
        = match lastWith xs k with
          | some f => some (convertPublished f)
          | none => mapGet (buildExisting ((pyGroupedSort K).map
              (fun e => setVal e.2.2 "published" (PyVal.dt e.1)))) k :=
      upsertAll_lookup xs convertPublished k _
    cases hlw : lastWith xs k with
    | some f =>
      refine Or.inr ⟨convertPublished f, convertPublished f, ?_, ?_, rfl, rfl, rfl⟩
      · rw [hm1, hlw]
      · rw [hm2, hlw]
    | none =>
      have hm1n : mapGet (mergeIncoming base xs) k = mapGet base k := by
        rw [hm1, hlw]
      have hm2n : mapGet (mergeIncoming (buildExisting ((pyGroupedSort K).map
            (fun e => setVal e.2.2 "published" (PyVal.dt e.1)))) xs) k
          = mapGet (buildExisting ((pyGroupedSort K).map
            (fun e => setVal e.2.2 "published" (PyVal.dt e.1)))) k := by
        rw [hm2, hlw]
      have hbase2 : mapGet (buildExisting ((pyGroupedSort K).map
            (fun e => setVal e.2.2 "published" (PyVal.dt e.1)))) k
          = (mapGet (mergeIncoming base xs) k).map
            (fun v => setVal v "published" (PyVal.dt (timeOfD v))) := by
        show mapGet (upsertAll [] ((pyGroupedSort K).map
            (fun e => setVal e.2.2 "published" (PyVal.dt e.1))) (fun f => f)) k = _
        rw [upsertAll_lookup, hLW k]
        cases mapGet (mergeIncoming base xs) k <;> rfl
      cases hmb : mapGet (mergeIncoming base xs) k with
      | none =>
        refine Or.inl ⟨rfl, ?_⟩
        rw [hm2n, hbase2, hmb]
        rfl
      | some v =>
        have hv1 : v ∈ (mergeIncoming base xs).map (fun kv => kv.2) :=
          List.mem_map.mpr ⟨(k, v), mem_of_mapGet hmb, rfl⟩
        obtain ⟨hT1, hI1⟩ := hv1keys v hv1
        refine Or.inr ⟨v, setVal v "published" (PyVal.dt (timeOfD v)), rfl, ?_, ?_, ?_, ?_⟩
        · rw [hm2n, hbase2, hmb]
          rfl
        · rw [entryTime_setVal_dt, hT1]
        · rw [entryIdStr_setVal_pub]
        · rw [convertPublished_setVal_dt]
          exact (convert_of_entryTime hT1 (hgoodv1 v hv1)).2.symm
  have hnodup2 : ((mergeIncoming (buildExisting ((pyGroupedSort K).map
        (fun e => setVal e.2.2 "published" (PyVal.dt e.1)))) xs).map (fun p => p.1)).Nodup :=
    upsertAll_keys_nodup (upsertAll_keys_nodup (by simp) _ _) xs convertPublished
  have hagree2 : ∀ kv ∈ mergeIncoming (buildExisting ((pyGroupedSort K).map
        (fun e => setVal e.2.2 "published" (PyVal.dt e.1)))) xs,
      getVal kv.2 "item_id" = some kv.1 :=
    upsertAll_id_agree (upsertAll_id_agree (by simp) (fun f => rfl) _)
      (fun f => convertPublished_id_key f "item_id" (by decide)) xs
  have hpermF : ((mergeIncoming (buildExisting ((pyGroupedSort K).map
        (fun e => setVal e.2.2 "published" (PyVal.dt e.1)))) xs).map
        (fun kv => redEnt (keyOf kv.2))).Perm
      ((mergeIncoming base xs).map (fun kv => redEnt (keyOf kv.2))) := by
    apply assocMapPerm hnodup1 hnodup2 (fun kv => redEnt (keyOf kv.2))
    intro k
    rcases hpoint k with ⟨h1, h2⟩ | ⟨v1, v2, h1, h2, hT, hI, hC⟩
    · exact Or.inl ⟨h1, h2⟩
    · refine Or.inr ⟨v1, v2, h1, h2, ?_⟩
      have ht2 : timeOfD v2 = timeOfD v1 := by unfold timeOfD; rw [hT]
      have hi2 : idOfD v2 = idOfD v1 := by unfold idOfD; rw [hI]
      show (timeOfD v2, idOfD v2, convertPublished v2)
        = (timeOfD v1, idOfD v1, convertPublished v1)
      rw [ht2, hi2, hC]
  have hv2keys : ∀ v ∈ (mergeIncoming (buildExisting ((pyGroupedSort K).map
        (fun e => setVal e.2.2 "published" (PyVal.dt e.1)))) xs).map (fun kv => kv.2),
      entryTime v = Except.ok (timeOfD v) ∧ entryIdStr v = Except.ok (idOfD v) := by
    intro v hv
    obtain ⟨kv, hkv, he⟩ := List.mem_map.mp hv
    have hx := mapGet_of_mem hnodup2 hkv
    rcases hpoint kv.1 with ⟨h1, h2⟩ | ⟨v1, v2, h1, h2, hT, hI, hC⟩
    · rw [hx] at h2
      exact absurd h2 (by simp)
    · have hvv : kv.2 = v2 := by
        rw [hx] at h2
        exact Option.some.inj h2
      have hv1m : v1 ∈ (mergeIncoming base xs).map (fun kv => kv.2) :=
        List.mem_map.mpr ⟨(kv.1, v1), mem_of_mapGet h1, rfl⟩
      obtain ⟨hT1, hI1⟩ := hv1keys v1 hv1m
      have ht2 : timeOfD v2 = timeOfD v1 := by unfold timeOfD; rw [hT]
      have hi2 : idOfD v2 = idOfD v1 := by unfold idOfD; rw [hI]
      have hveq : v = v2 := by
        have h5 : v = kv.2 := he.symm
        rw [h5, hvv]
      rw [hveq]
      constructor
      · rw [hT, hT1, ht2]
      · rw [hI, hI1, hi2]
  have hK2 : keyEntries ((mergeIncoming (buildExisting ((pyGroupedSort K).map
        (fun e => setVal e.2.2 "published" (PyVal.dt e.1)))) xs).map (fun kv => kv.2))
      = Except.ok (((mergeIncoming (buildExisting ((pyGroupedSort K).map
        (fun e => setVal e.2.2 "published" (PyVal.dt e.1)))) xs).map
        (fun kv => kv.2)).map keyOf) :=
    keyEntries_ok_of_forall (fun v hv =>
      ⟨⟨timeOfD v, (hv2keys v hv).1⟩, ⟨idOfD v, (hv2keys v hv).2⟩⟩)
  rw [mergeAndWrite_of_keyEntries hK2]
  have hred : ∀ X : List SortEnt,
      (pyGroupedSort X).map (fun e => RawElem.item (convertPublished e.2.2))
        = (pyGroupedSort (X.map redEnt)).map (fun e => RawElem.item e.2.2) := by
    intro X
    rw [pyGroupedSort_map_red, List.map_map]
    rfl
  have hperm2 : ((((mergeIncoming (buildExisting ((pyGroupedSort K).map
        (fun e => setVal e.2.2 "published" (PyVal.dt e.1)))) xs).map
        (fun kv => kv.2)).map keyOf).map redEnt).Perm (K.map redEnt) := by
    nth_rewrite 2 [hKeq]
    simp only [List.map_map]
    exact hpermF
  have hinj2 : ∀ a ∈ (((mergeIncoming (buildExisting ((pyGroupedSort K).map
        (fun e => setVal e.2.2 "published" (PyVal.dt e.1)))) xs).map
        (fun kv => kv.2)).map keyOf).map redEnt,
      ∀ b ∈ (((mergeIncoming (buildExisting ((pyGroupedSort K).map
        (fun e => setVal e.2.2 "published" (PyVal.dt e.1)))) xs).map
        (fun kv => kv.2)).map keyOf).map redEnt,
      a.2.1 = b.2.1 → a = b := by
    simp only [List.map_map]
    intro a ha b hb hab
    obtain ⟨kva, hkva, hea⟩ := List.mem_map.mp ha
    obtain ⟨kvb, hkvb, heb⟩ := List.mem_map.mp hb
    have hma : kva.2 ∈ (mergeIncoming (buildExisting ((pyGroupedSort K).map
        (fun e => setVal e.2.2 "published" (PyVal.dt e.1)))) xs).map (fun kv => kv.2) :=
      List.mem_map.mpr ⟨kva, hkva, rfl⟩
    have hmb2 : kvb.2 ∈ (mergeIncoming (buildExisting ((pyGroupedSort K).map
        (fun e => setVal e.2.2 "published" (PyVal.dt e.1)))) xs).map (fun kv => kv.2) :=
      List.mem_map.mpr ⟨kvb, hkvb, rfl⟩
    have hIa := (hv2keys kva.2 hma).2
    have hIb := (hv2keys kvb.2 hmb2).2
    have hka : kva.1 = PyVal.str (idOfD kva.2) :=
      Option.some.inj ((hagree2 kva hkva).symm.trans (entryIdStr_ok_getVal hIa))
    have hkb : kvb.1 = PyVal.str (idOfD kvb.2) :=
      Option.some.inj ((hagree2 kvb hkvb).symm.trans (entryIdStr_ok_getVal hIb))
    have hid : idOfD kva.2 = idOfD kvb.2 := by
      rw [← hea, ← heb] at hab
      exact hab
    have hkk : kva.1 = kvb.1 := by rw [hka, hkb, hid]
    have heq := nodupkeys_pair_unique hnodup2 hkva hkvb hkk
    rw [← hea, ← heb, heq]
  rw [hred (((mergeIncoming (buildExisting ((pyGroupedSort K).map
        (fun e => setVal e.2.2 "published" (PyVal.dt e.1)))) xs).map
        (fun kv => kv.2)).map keyOf), hred K,
    pyGroupedSort_eq_of_perm hperm2 hinj2]

/-- A second `save_many` run over the file a first successful run wrote
reproduces that file exactly. -/
theorem save_many_stable {fs : Option RawFile} {xs : List Fields} {r : RawFile}
    (hok : save_many fs xs = .ok r) : save_many (some r) xs = .ok r := by
  have main : ∀ base : IdMap,
      (∀ kv ∈ base, getVal kv.2 "item_id" = some kv.1) →
      (base.map (fun p => p.1)).Nodup →
      (∀ kv ∈ base, GoodPub kv.2) →
      (∀ kv ∈ base, kv.1.truthy = true) →
      mergeAndWrite base xs = Except.ok r → save_many (some r) xs = Except.ok r := by
    intro base hagree0 hnodup0 hgood0 htruthy0 hmw
    unfold mergeAndWrite at hmw
    split at hmw
    · simp at hmw
    · rename_i K hK
      injection hmw with hmw
      subst hmw
      have hgood1 : ∀ kv ∈ mergeIncoming base xs, GoodPub kv.2 := merged_goodPub hgood0 xs
      have hgoodv1 : ∀ v ∈ (mergeIncoming base xs).map (fun kv => kv.2), GoodPub v := by
        intro v hv
        obtain ⟨kv, hkv, he⟩ := List.mem_map.mp hv
        rw [← he]
        exact hgood1 kv hkv
      have hE : ∀ e ∈ pyGroupedSort K,
          parsePublished (convertPublished e.2.2)
            = Except.ok (setVal e.2.2 "published" (PyVal.dt e.1)) ∧
          loadBackEntry (convertPublished e.2.2) = setVal e.2.2 "published" (PyVal.dt e.1) := by
        intro e he
        have heK : e ∈ K := ((pyGroupedSort_perm K).mem_iff).mp he
        obtain ⟨hv, hT, hI⟩ := keyEntries_ok_mem hK e heK
        obtain ⟨hget, hparse, hload⟩ := converted_entry_facts hT (hgoodv1 e.2.2 hv)
        exact ⟨hparse, hload⟩
      have hload2 : load_all (some (RawFile.withItems ((pyGroupedSort K).map
            (fun e => RawElem.item (convertPublished e.2.2)))))
          = Except.ok ((pyGroupedSort K).map
            (fun e => setVal e.2.2 "published" (PyVal.dt e.1))) := by
        show loadItems _ = _
        have h1 : (pyGroupedSort K).map (fun e => RawElem.item (convertPublished e.2.2))
            = ((pyGroupedSort K).map (fun e => convertPublished e.2.2)).map RawElem.item := by
          rw [List.map_map]
          rfl
        have hpre : ∀ f ∈ (pyGroupedSort K).map (fun e => convertPublished e.2.2),
            parsePublished f = Except.ok (loadBackEntry f) := by
          intro f hf
          obtain ⟨e, he, hfe⟩ := List.mem_map.mp hf
          have hfeq : f = convertPublished e.2.2 := hfe.symm
          rw [hfeq, (hE e he).2]
          exact (hE e he).1
        rw [h1, loadItems_map_ok hpre, List.map_map]
        congr 1
        apply List.map_congr_left
        intro e he
        exact (hE e he).2
      rw [save_many_of_load xs hload2]
      exact mergeAndWrite_stable hagree0 hnodup0 hgood0 htruthy0 hK
  unfold save_many at hok
  match hl : load_all fs with
  | .ok l =>
    simp only [hl] at hok
    refine main (buildExisting l) ?_ ?_ ?_ ?_ hok
    · exact upsertAll_id_agree (by simp) (fun f => rfl) l
    · exact upsertAll_keys_nodup (by simp) l _
    · intro kv hkv
      rcases upsertAll_vals_sub hkv with h | ⟨f, hf, hkveq⟩
      · simp at h
      · rw [hkveq]
        exact load_all_goodPub hl f hf
    · exact upsertAll_keys_truthy (by simp) l _
  | .error e =>
    cases e <;> simp only [hl] at hok
    case attrError => simp at hok
    all_goals exact main [] (by simp) (by simp) (by simp) (by simp) hok

/-- C9: merging the same batch twice is idempotent.  For every initial store
file state and every input item sequence, the file state after running
`save_many` twice on the same inputs equals the state after running it once:
a successful second run rewrites exactly the file the first run produced, and
a failed run (whose exception fires before the file is opened for writing)
leaves the state unchanged. -/
theorem claim_C9_idempotent (fs : Option RawFile) (xs : List Fields) :
    stateAfter (stateAfter fs xs) xs = stateAfter fs xs := by
  have h1 : ∀ (fs2 : Option RawFile) (r2 : RawFile), save_many fs2 xs = .ok r2 →
      stateAfter fs2 xs = some r2 := by
    intro fs2 r2 h
    unfold stateAfter
    rw [h]
  have h2 : ∀ (fs2 : Option RawFile) (e : SaveErr), save_many fs2 xs = .error e →
      stateAfter fs2 xs = fs2 := by
    intro fs2 e h
    unfold stateAfter
    rw [h]
  match hok : save_many fs xs with
  | .ok r =>
    rw [h1 fs r hok]
    exact h1 (some r) r (save_many_stable hok)
  | .error e =>
    rw [h2 fs e hok]
    exact h2 fs e hok

/-- C4: the dict → `Item` → dict round trip on the repository's own test input
drops the `seen` entry: `Item` has no `seen` field, `to_dict` emits no `seen`
key, and the result differs from the input dict — while the test
`test_item_from_dict_to_dict_round_trip` asserts they are equal and the spec
requires a `seen` flag defaulting to `false`.  (The remaining fields, including
the timestamp, do round-trip exactly.) -/
theorem claim_C4_seen_dropped :
    Item.from_dict sampleItemDict = .ok sampleItem ∧
    Item.to_dict sampleItem = sampleItemDict.take 6 ∧
    getVal (Item.to_dict sampleItem) "seen" = none ∧
    Item.to_dict sampleItem ≠ sampleItemDict ∧
    getVal sampleItemDict "seen" = some (.bool false) := by
  refine ⟨by rfl, by decide, by decide, by decide, by decide⟩

end TechTracker
